import Mathlib

/-!
# nginx-subrequest-auth-jwt: policy engine, token extraction, header projection,
initialization and the request handler

A shallow embedding of `main.go`.  Go maps are association lists whose list
order is the order in which a `range` loop visits the entries; Go leaves that
order unspecified, so every statement below is quantified over all such
lists.  A Go runtime panic is the `error` side of `Except Fault`.  Logger
calls have no effect on any value computed here and are left out.
-/

set_option autoImplicit false

namespace NginxAuthJwt

deriving instance DecidableEq for Except

/-! ## Data model -/

/-- Runtime panics that `main.go` can raise. -/
inductive Fault
  /-- A failed single-value type assertion `x.(T)`. -/
  | typeAssertion
  /-- An assignment to an entry of a nil map. -/
  | nilMapAssign
  /-- An index expression out of range. -/
  | indexOutOfRange
  deriving DecidableEq, Repr

/-- An IEEE-754 double, kept as its bit pattern; the program never computes with one. -/
structure Float64 where
  bits : Nat
  deriving DecidableEq, Repr

/-- What `encoding/json` decodes into an `interface{}`: `nil`, `bool`, `float64`,
`string`, `[]interface{}` or `map[string]interface{}`. -/
inductive JValue
  | null
  | bool (b : Bool)
  | num (f : Float64)
  | str (s : String)
  | arr (xs : List JValue)
  | obj (kvs : List (String × JValue))

/-- The type `jwt.MapClaims`, a `map[string]interface{}`; indexing is `List.lookup`. -/
abbrev MapClaims := List (String × JValue)

/-- A `map[string][]string`: one claim set of the configuration, `url.Values` and
`http.Header`. -/
abbrev StringListMap := List (String × List String)

/-- The two fields of `http.Cookie` that the program reads. -/
structure Cookie where
  Name : String
  Value : String
  deriving DecidableEq, Repr

/-- The parts of `http.Request` that the program reads: `r.Method`, the result of
`r.URL.Query()`, the result of `r.Cookies()` and `r.Header`. -/
structure Request where
  Method : String
  Query : StringListMap
  Cookies : List Cookie
  Header : StringListMap
  deriving DecidableEq, Repr

/-- The coordinates of an `ecdsa.PublicKey`. -/
structure ECPublicKey where
  X : Nat
  Y : Nat
  deriving DecidableEq, Repr

/-- Source lines 53-60, without the logger.  `ResponseHeaders = none` is the nil map. -/
structure server where
  PublicKey : ECPublicKey
  ClaimsSource : String
  StaticClaims : List StringListMap
  CookieNames : List String
  ResponseHeaders : Option (List (String × String))
  deriving DecidableEq, Repr

/-- Source lines 37-38. -/
def claimsSourceStatic : String := "static"

/-- Source lines 37-38. -/
def claimsSourceQueryString : String := "queryString"

/-- The dynamic type of `token.Method`: the signing methods that jwt-go registers. -/
inductive SigningMethod
  | ECDSA (name : String)
  | HMAC (name : String)
  | RSA (name : String)
  | RSAPSS (name : String)
  | unsecured
  deriving DecidableEq, Repr

/-- The fields of `jwt.Token` that the program reads. -/
structure Token where
  Raw : String
  Method : SigningMethod
  Claims : MapClaims
  Valid : Bool

/-- Errors of the jwt-go library; the program only tests them against nil. -/
inductive JwtError
  | ErrNoTokenInRequest
  | extraction
  | malformed
  | unverifiable
  | invalid
  deriving DecidableEq, Repr

/-- The primitives of the libraries the program calls (jwt-go, `encoding/json`,
`net/textproto`), taken as parameters: every statement holds for all of them. -/
structure Lib where
  /-- The extractor `request.AuthorizationHeaderExtractor`, a function of `req.Header`. -/
  AuthorizationHeaderExtractor : StringListMap → Except JwtError String
  /-- The method `Parser.ParseUnverified`: splits and decodes the token and resolves
  its signing method, `none` when that fails. -/
  ParseUnverified : String → Option Token
  /-- Whether `token.Method.Verify(signingString, signature, key)` returns nil. -/
  Verify : Token → ECPublicKey → Bool
  /-- Whether `Claims.Valid()` returns nil at the clock reading of the parser. -/
  ValidAtParse : MapClaims → Bool
  /-- Whether `claims.Valid()` returns nil at the clock reading of line 245. -/
  ValidAtCheck : MapClaims → Bool
  /-- The function `json.Marshal`, `none` when it returns an error. -/
  Marshal : JValue → Option (List Nat)
  /-- The function `textproto.CanonicalMIMEHeaderKey`, applied by `http.Header.Add`. -/
  CanonicalMIMEHeaderKey : String → String

/-- The counter vector `requestsTotal` with its four labels (lines 42-45). -/
structure Counters where
  c200 : Nat
  c401 : Nat
  c405 : Nat
  c500 : Nat
  deriving DecidableEq, Repr

/-- The `http.ResponseWriter` handed to the handler: its header map and the status
line it has written, if any (the first `WriteHeader` wins). -/
structure ResponseWriter where
  header : StringListMap
  wroteHeader : Option Nat
  deriving DecidableEq, Repr

/-- Source lines 171-174. -/
structure statusWriter where
  ResponseWriter : ResponseWriter
  status : Nat
  deriving DecidableEq, Repr

/-- Everything a call of `validate` can change: the shared server, the counters and
the response. -/
structure World where
  s : server
  requestsTotal : Counters
  w : statusWriter
  deriving DecidableEq, Repr

/-- The function `strings.HasPrefix`, on strings as sequences of characters; the
two prefixes the program tests are ASCII. -/
def hasPrefix (s pre : String) : Bool :=
  pre.data.isPrefixOf s.data

/-- The function `strings.TrimPrefix`. -/
def trimPrefix (s pre : String) : String :=
  if hasPrefix s pre then String.mk (s.data.drop pre.data.length) else s

/-! ## The claims policy engine -/

/-- Source lines 404-411. -/
def contains : List String → String → Bool
  | [], _ => false
  | v :: haystack, needle => if v = needle then true else contains haystack needle

/-- The single-value assertion `actual.(string)` of line 349. -/
def assertString : JValue → Except Fault String
  | .str s => .ok s
  | _ => .error .typeAssertion

/-- The loop of lines 347-353; the result is the final value of `found`. -/
def findInList (validValues : List String) : List JValue → Except Fault Bool
  | [] => .ok false
  | actual :: rest =>
    match assertString actual with
    | .error e => .error e
    | .ok s => if contains validValues s then .ok true else findInList validValues rest

/-- Source lines 335-367. -/
def checkClaim (claimName : String) (validValues : List String) (claims : MapClaims) :
    Except Fault Bool :=
  match claims.lookup claimName with
  | some (.str actual) => .ok (contains validValues actual)
  | some (.arr actualList) => findInList validValues actualList
  | _ => .ok false

/-- The inner loop of lines 285-290; the result is the value of `valid` after it. -/
def checkClaimSet (claims : MapClaims) : StringListMap → Except Fault Bool
  | [] => .ok true
  | (claimName, validValues) :: rest =>
    match checkClaim claimName validValues claims with
    | .error e => .error e
    | .ok false => .ok false
    | .ok true => checkClaimSet claims rest

/-- The outer loop of lines 283-294, started with the current value of `valid`. -/
def staticLoop (claims : MapClaims) : List StringListMap → Bool → Except Fault Bool
  | [], valid => .ok valid
  | claimSet :: rest, _ =>
    match checkClaimSet claims claimSet with
    | .error e => .error e
    | .ok true => .ok true
    | .ok false => staticLoop claims rest false

/-- The loop of lines 305-309 over the keys of the query. -/
def hasClaimsPrefixedKey : StringListMap → Bool → Bool
  | [], found => found
  | (key, _) :: rest, found =>
    hasClaimsPrefixedKey rest (if hasPrefix key "claims_" then true else found)

/-- The loop of lines 317-327; the result is the final value of `passedValidation`. -/
def queryLoop (claims : MapClaims) : StringListMap → Except Fault Bool
  | [] => .ok true
  | (claimNameQ, validValues) :: rest =>
    if hasPrefix claimNameQ "claims_" then
      match checkClaim (trimPrefix claimNameQ "claims_") validValues claims with
      | .error e => .error e
      | .ok false => .ok false
      | .ok true => queryLoop claims rest
    else queryLoop claims rest

/-- Source lines 281-300. -/
def staticClaimValidator (s : server) (claims : MapClaims) : Except Fault Bool :=
  staticLoop claims s.StaticClaims false

/-- Source lines 302-333. -/
def queryStringClaimValidator (_s : server) (claims : MapClaims) (r : Request) :
    Except Fault Bool :=
  let validClaims := r.Query
  let hasKey := hasClaimsPrefixedKey validClaims false
  if validClaims.length = 0 ∨ hasKey = false then .ok false
  else queryLoop claims validClaims

/-! ## Token extraction and verification -/

/-- The loop of lines 273-278 over `req.Cookies()`. -/
def cookieLoop (x : List String) : List Cookie → Except JwtError String
  | [] => .error .ErrNoTokenInRequest
  | cookie :: rest => if contains x cookie.Name then .ok cookie.Value else cookieLoop x rest

/-- Source lines 270-279. -/
def CookieExtractor.ExtractToken (x : List String) (req : Request) : Except JwtError String :=
  cookieLoop x req.Cookies

/-- The method `request.MultiExtractor.ExtractToken` of jwt-go: the first extractor
that yields a token or an error other than `ErrNoTokenInRequest` decides; an empty
token returned with a nil error is passed on as it is. -/
def MultiExtractor.ExtractToken (req : Request) :
    List (Request → Except JwtError String) → Except JwtError String
  | [] => .error .ErrNoTokenInRequest
  | extractor :: rest =>
    match extractor req with
    | .ok tok => .ok tok
    | .error err =>
      if err = .ErrNoTokenInRequest then MultiExtractor.ExtractToken req rest else .error err

/-- The key function of lines 230-236. -/
def keyFunc (s : server) (token : Token) : Except String ECPublicKey :=
  match token.Method with
  | .ECDSA _ => .ok s.PublicKey
  | _ => .error "Unexpected signing method"

/-- The method `Parser.ParseWithClaims` of jwt-go: decode, ask the key function for
the key, validate the claims, verify the signature with that key. -/
def ParseWithClaims (lib : Lib) (tokenString : String)
    (keyFunc : Token → Except String ECPublicKey) : Except JwtError Token :=
  match lib.ParseUnverified tokenString with
  | none => .error .malformed
  | some token =>
    match keyFunc token with
    | .error _ => .error .unverifiable
    | .ok key =>
      let claimsOk := lib.ValidAtParse token.Claims
      let signatureOk := lib.Verify token key
      if claimsOk && signatureOk then .ok { token with Valid := true } else .error .invalid

/-- The function `request.ParseFromRequest` of jwt-go. -/
def ParseFromRequest (lib : Lib) (req : Request)
    (extractor : Request → Except JwtError String)
    (keyFunc : Token → Except String ECPublicKey) : Except JwtError Token :=
  match extractor req with
  | .error e => .error e
  | .ok tokenString => ParseWithClaims lib tokenString keyFunc

/-- The extractor built at lines 224-227. -/
def extractor (lib : Lib) (s : server) (req : Request) : Except JwtError String :=
  MultiExtractor.ExtractToken req
    [CookieExtractor.ExtractToken s.CookieNames, fun r => lib.AuthorizationHeaderExtractor r.Header]

/-- Lines 259-262: what `validateDeviceToken` returns once the policy has answered. -/
def policyResult (claims : MapClaims) : Except Fault Bool → Except Fault (MapClaims × Bool)
  | .error e => .error e
  | .ok false => .ok ([], false)
  | .ok true => .ok (claims, true)

/-- Source lines 218-263; the nil map it returns on failure is `[]`. -/
def validateDeviceToken (lib : Lib) (s : server) (r : Request) :
    Except Fault (MapClaims × Bool) :=
  match ParseFromRequest lib r (extractor lib s) (keyFunc s) with
  | .error _ => .ok ([], false)
  | .ok token =>
    if token.Valid = false then .ok ([], false)
    else
      let claims := token.Claims
      if lib.ValidAtCheck claims = false then .ok ([], false)
      else if s.ClaimsSource = claimsSourceStatic then
        policyResult claims (staticClaimValidator s claims)
      else if s.ClaimsSource = claimsSourceQueryString then
        policyResult claims (queryStringClaimValidator s claims r)
      else .ok ([], false)

/-! ## Header projection -/

/-- The conversion `([]byte)(s)` for one character: its UTF-8 bytes. -/
def utf8EncodeChar (c : Char) : List Nat :=
  let v := c.val.toNat
  if v < 0x80 then [v]
  else if v < 0x800 then [0xC0 + v / 64, 0x80 + v % 64]
  else if v < 0x10000 then [0xE0 + v / 4096, 0x80 + v / 64 % 64, 0x80 + v % 64]
  else [0xF0 + v / 262144, 0x80 + v / 4096 % 64, 0x80 + v / 64 % 64, 0x80 + v % 64]

/-- The conversion `([]byte)(sClaim)` of line 390. -/
def stringBytes (s : String) : List Nat :=
  s.data.flatMap utf8EncodeChar

/-- The alphabet of `base64.StdEncoding`. -/
def encodeStd : List Char :=
  "ABCDEFGHIJKLMNOPQRSTUVWXYZabcdefghijklmnopqrstuvwxyz0123456789+/".data

/-- The character of `base64.StdEncoding` for a six-bit value. -/
def encodeStdChar (n : Nat) : Char :=
  encodeStd.getD n '='

/-- The characters that `base64.StdEncoding` produces, with `=` padding. -/
def encodeToChars : List Nat → List Char
  | [] => []
  | [a] => [encodeStdChar (a / 4), encodeStdChar (a % 4 * 16), '=', '=']
  | [a, b] =>
    [encodeStdChar (a / 4), encodeStdChar (a % 4 * 16 + b / 16), encodeStdChar (b % 16 * 4), '=']
  | a :: b :: c :: rest =>
    encodeStdChar (a / 4) :: encodeStdChar (a % 4 * 16 + b / 16) ::
      encodeStdChar (b % 16 * 4 + c / 64) :: encodeStdChar (c % 64) :: encodeToChars rest

/-- The method `base64.StdEncoding.EncodeToString`. -/
def EncodeToString (src : List Nat) : String :=
  String.mk (encodeToChars src)

/-- The map assignment `m[key] = value` on a non-nil map: an existing key keeps its
place in the visiting order, a new key is visited last. -/
def mapAssign : List (String × String) → String → String → List (String × String)
  | [], key, value => [(key, value)]
  | (k, v) :: rest, key, value =>
    if k = key then (k, value) :: rest else (k, v) :: mapAssign rest key value

/-- The statement `h[key] = append(h[key], value)` inside `http.Header.Add`. -/
def appendValue : StringListMap → String → String → StringListMap
  | [], key, value => [(key, [value])]
  | (k, vs) :: rest, key, value =>
    if k = key then (k, vs ++ [value]) :: rest else (k, vs) :: appendValue rest key value

/-- The method `http.Header.Add`. -/
def Header.Add (lib : Lib) (h : StringListMap) (key value : String) : StringListMap :=
  appendValue h (lib.CanonicalMIMEHeaderKey key) value

/-- The loop of lines 373-378 over the query parameters: the mapping
`s.ResponseHeaders` when the loop ends or panics, and the panic if there is one.
The operand `value[0]` is evaluated before the assignment is carried out. -/
def extendResponseHeaders :
    StringListMap → Option (List (String × String)) →
      Option (List (String × String)) × Option Fault
  | [], responseHeaders => (responseHeaders, none)
  | (key, value) :: rest, responseHeaders =>
    if hasPrefix key "responses_" then
      match value with
      | [] => (responseHeaders, some .indexOutOfRange)
      | first :: _ =>
        match responseHeaders with
        | none => (none, some .nilMapAssign)
        | some m =>
          extendResponseHeaders rest (some (mapAssign m (trimPrefix key "responses_") first))
    else extendResponseHeaders rest responseHeaders

/-- Lines 388-397: the bytes to encode, `none` when `json.Marshal` fails. -/
def toClaim (lib : Lib) : JValue → Option (List Nat)
  | .str sClaim => some (stringBytes sClaim)
  | claim => lib.Marshal claim

/-- The loop of lines 383-401 over `s.ResponseHeaders`, on the header map of `w`. -/
def projectLoop (lib : Lib) (claims : MapClaims) :
    List (String × String) → StringListMap → StringListMap
  | [], h => h
  | (header, claimName) :: rest, h =>
    match claims.lookup claimName with
    | none => projectLoop lib claims rest h
    | some claim =>
      match toClaim lib claim with
      | none => projectLoop lib claims rest h
      | some bytes => projectLoop lib claims rest (Header.Add lib h header (EncodeToString bytes))

/-- Source lines 369-402: the server and the writer afterwards, and the panic if the
call panicked. -/
def writeResponseHeaders (lib : Lib) (s : server) (w : statusWriter) (r : Request)
    (claims : MapClaims) : server × statusWriter × Option Fault :=
  let parameters := r.Query
  match extendResponseHeaders parameters s.ResponseHeaders with
  | (responseHeaders, some fault) =>
    ({ s with ResponseHeaders := responseHeaders }, w, some fault)
  | (none, none) => ({ s with ResponseHeaders := none }, w, none)
  | (some m, none) =>
    ({ s with ResponseHeaders := some m },
      { w with ResponseWriter :=
          { w.ResponseWriter with header := projectLoop lib claims m w.ResponseWriter.header } },
      none)

/-! ## The request handler -/

/-- The call `requestsTotal.WithLabelValues(label).Inc()`. -/
def Counters.Inc (c : Counters) (label : String) : Counters :=
  if label = "200" then { c with c200 := c.c200 + 1 }
  else if label = "401" then { c with c401 := c.c401 + 1 }
  else if label = "405" then { c with c405 := c.c405 + 1 }
  else if label = "500" then { c with c500 := c.c500 + 1 }
  else c

/-- The method `WriteHeader` of the wrapped `http.ResponseWriter`: only the first
call writes the status line. -/
def ResponseWriter.WriteHeader (rw : ResponseWriter) (status : Nat) : ResponseWriter :=
  match rw.wroteHeader with
  | none => { rw with wroteHeader := some status }
  | some _ => rw

/-- Source lines 176-179. -/
def statusWriter.WriteHeader (w : statusWriter) (status : Nat) : statusWriter :=
  { status := status, ResponseWriter := w.ResponseWriter.WriteHeader status }

/-- The deferred function of lines 190-197 when it recovers a panic. -/
def recovered (s : server) (requestsTotal : Counters) (w : statusWriter) : World :=
  { s := s, requestsTotal := requestsTotal.Inc "500", w := w.WriteHeader 500 }

/-- Source lines 188-216. -/
def validate (lib : Lib) (s : server) (requestsTotal : Counters) (rw : ResponseWriter)
    (r : Request) : World :=
  let w : statusWriter := { ResponseWriter := rw, status := 0 }
  if r.Method ≠ "GET" ∧ r.Method ≠ "HEAD" then
    { s := s, requestsTotal := requestsTotal.Inc "405", w := w.WriteHeader 405 }
  else
    match validateDeviceToken lib s r with
    | .error _ => recovered s requestsTotal w
    | .ok (_, false) =>
      { s := s, requestsTotal := requestsTotal.Inc "401", w := w.WriteHeader 401 }
    | .ok (claims, true) =>
      let requestsTotal := requestsTotal.Inc "200"
      match writeResponseHeaders lib s w r claims with
      | (s, w, some _) => recovered s requestsTotal w
      | (s, w, none) => { s := s, requestsTotal := requestsTotal, w := w.WriteHeader 200 }

/-! ## The Authorization header extractor of jwt-go -/

/-- The method `http.Header.Get` for a key in canonical form: the first value stored
under the key, or the empty string. -/
def Header.Get (h : StringListMap) (key : String) : String :=
  match h.lookup key with
  | some (v :: _) => v
  | _ => ""

/-- The filter `stripBearerPrefixFromTokenString` of jwt-go (`request/oauth2.go`):
when the first seven bytes, upper-cased, are `BEARER `, they are cut off; any other
value is returned whole.  Seven bytes that upper-case to seven ASCII letters are
seven ASCII characters, so the test is stated on characters. -/
def stripBearerPrefixFromTokenString (tok : String) : String :=
  if (tok.data.take 7).map Char.toUpper = "BEARER ".data then String.mk (tok.data.drop 7)
  else tok

/-- The extractor `request.AuthorizationHeaderExtractor` of jwt-go: a
`PostExtractionFilter` that applies `stripBearerPrefixFromTokenString` to what
`HeaderExtractor{"Authorization"}` finds, and reports `ErrNoTokenInRequest` when the
header is absent or empty. -/
def AuthorizationHeaderExtractor (h : StringListMap) : Except JwtError String :=
  let ah := Header.Get h "Authorization"
  if ah = "" then .error .ErrNoTokenInRequest else .ok (stripBearerPrefixFromTokenString ah)

/-! ## Initialization -/

/-- Source lines 115-119. -/
structure keySource where
  Source : String
  Name : String
  deriving DecidableEq, Repr

/-- Source lines 109-113; `KeyType` is the field `Type`. -/
structure validationKey where
  KeyType : String
  KeyMaterial : String
  KeyFrom : Option keySource
  deriving DecidableEq, Repr

/-- Source lines 121-127. -/
structure config where
  ValidationKeys : List validationKey
  ClaimsSource : String
  StaticClaims : List StringListMap
  CookieNames : List String
  ResponseHeaders : Option (List (String × String))
  deriving DecidableEq, Repr

/-- What `newServer` reads from outside the program, taken as parameters:
`ioutil.ReadFile`, `yaml.Unmarshal` into a `config`, `os.Getenv` and
`jwt.ParseECPublicKeyFromPEM`; `none` is a returned error. -/
structure Sys where
  ReadFile : String → Option String
  Unmarshal : String → Option config
  Getenv : String → String
  ParseECPublicKeyFromPEM : String → Option ECPublicKey

/-- Lines 73-83: the key material, or the error of line 77. -/
def keyMaterialOf (sys : Sys) (key : validationKey) : Except String String :=
  match key.KeyFrom with
  | some keyFrom =>
    if keyFrom.Source ≠ "env" then .error "keyFrom source unknown"
    else .ok (sys.Getenv keyFrom.Name)
  | none => .ok key.KeyMaterial

/-- Source lines 62-107: a panic, a returned error, or the server. -/
def newServer (sys : Sys) (configFilePath : String) : Except Fault (Except String server) :=
  match sys.ReadFile configFilePath with
  | none => .ok (.error "ReadFile")
  | some cfg =>
    match sys.Unmarshal cfg with
    | none => .ok (.error "Unmarshal")
    | some config =>
      match config.ValidationKeys with
      | [] => .error .indexOutOfRange
      | key :: _ =>
        match keyMaterialOf sys key with
        | .error e => .ok (.error e)
        | .ok keyMaterial =>
          match sys.ParseECPublicKeyFromPEM keyMaterial with
          | none => .ok (.error "ParseECPublicKeyFromPEM")
          | some pubkey =>
            if contains ["static", "queryString"] config.ClaimsSource = false then
              .ok (.error "claimsSource parameter must be set and either static or queryString")
            else if config.ClaimsSource = claimsSourceStatic ∧ config.StaticClaims.length = 0 then
              .ok (.error "Claims configuration is empty")
            else
              .ok (.ok
                { PublicKey := pubkey
                  ClaimsSource := config.ClaimsSource
                  StaticClaims := config.StaticClaims
                  CookieNames := config.CookieNames
                  ResponseHeaders := config.ResponseHeaders })

/-! ## Predicates used in the statements -/

/-- Every sequence-valued claim holds strings only: the claims mappings on which
`checkClaim` performs no failing type assertion. -/
def SequencesHoldStrings (claims : MapClaims) : Prop :=
  ∀ name xs, claims.lookup name = some (.arr xs) → ∀ v ∈ xs, ∃ s, v = JValue.str s

/-- The request carries a token that passes every check of lines 224-248, and
`claims` is its payload: a token was extracted, it decodes, its signing method is
an ECDSA method, the signature verifies against the configured key, and the
temporal claims are valid at both clock readings. -/
def Verified (lib : Lib) (s : server) (r : Request) (claims : MapClaims) : Prop :=
  ∃ raw token name, extractor lib s r = .ok raw ∧ lib.ParseUnverified raw = some token ∧
    token.Method = .ECDSA name ∧ lib.Verify token s.PublicKey = true ∧
    lib.ValidAtParse token.Claims = true ∧ lib.ValidAtCheck token.Claims = true ∧
    claims = token.Claims

/-- The values a header map holds under a name, none when the name is absent. -/
def headerValues (h : StringListMap) (name : String) : List String :=
  (h.lookup name).getD []

/-- The claim name that the query gives for the header `H`: the first value of the
parameter `responses_H` that is visited last, if there is one. -/
def overrideOf : StringListMap → String → Option String
  | [], _ => none
  | (key, value) :: rest, H =>
    match overrideOf rest H with
    | some claimName => some claimName
    | none => if key = "responses_" ++ H then value.head? else none

/-- The header value that the claim named `claimName` is projected to: none when
the claim is absent or cannot be serialized. -/
def projectedValue (lib : Lib) (claims : MapClaims) (claimName : String) : Option String :=
  match claims.lookup claimName with
  | none => none
  | some claim => (toClaim lib claim).map EncodeToString

/-- The six-bit value of a character of the standard base64 alphabet. -/
def decodeStdChar (c : Char) : Option Nat :=
  let i := encodeStd.indexOf c
  if i < 64 then some i else none

/-- A decoder for padded standard base64, the inverse of `encodeToChars`. -/
def decodeChars : List Char → Option (List Nat)
  | [] => some []
  | c1 :: c2 :: c3 :: c4 :: rest =>
    match decodeStdChar c1, decodeStdChar c2 with
    | some n1, some n2 =>
      if c3 = '=' ∧ c4 = '=' ∧ rest = [] then some [n1 * 4 + n2 / 16]
      else
        match decodeStdChar c3 with
        | none => none
        | some n3 =>
          if c4 = '=' ∧ rest = [] then some [n1 * 4 + n2 / 16, n2 % 16 * 16 + n3 / 4]
          else
            match decodeStdChar c4, decodeChars rest with
            | some n4, some bytes =>
              some ((n1 * 4 + n2 / 16) :: (n2 % 16 * 16 + n3 / 4) :: (n3 % 4 * 64 + n4) :: bytes)
            | _, _ => none
    | _, _ => none
  | _ => none

/-! ## Base64 and UTF-8 as their standards describe them -/

/-- The base64 alphabet of RFC 4648, table 1, by value: `A` to `Z` for 0 to 25,
`a` to `z` for 26 to 51, `0` to `9` for 52 to 61, `+` for 62 and `/` for 63. -/
def stdAlphabetChar (v : Nat) : Char :=
  if v < 26 then Char.ofNat (65 + v)
  else if v < 52 then Char.ofNat (97 + (v - 26))
  else if v < 62 then Char.ofNat (48 + (v - 52))
  else if v = 62 then '+'
  else '/'

/-- The eight bits of a byte, most significant first. -/
def byteBits (b : Nat) : List Nat :=
  [b / 128 % 2, b / 64 % 2, b / 32 % 2, b / 16 % 2, b / 8 % 2, b / 4 % 2, b / 2 % 2, b % 2]

/-- The number that six bits spell, most significant first. -/
def sextetValue (b1 b2 b3 b4 b5 b6 : Nat) : Nat :=
  32 * b1 + 16 * b2 + 8 * b3 + 4 * b4 + 2 * b5 + b6

/-- A bit stream cut into groups of six bits; a last group that is short is filled
with zero bits on the right. -/
def sextets : List Nat → List Nat
  | b1 :: b2 :: b3 :: b4 :: b5 :: b6 :: rest => sextetValue b1 b2 b3 b4 b5 b6 :: sextets rest
  | [] => []
  | bits =>
    [sextetValue (bits.getD 0 0) (bits.getD 1 0) (bits.getD 2 0) (bits.getD 3 0)
      (bits.getD 4 0) (bits.getD 5 0)]

/-- Padding with `=` up to a multiple of four characters. -/
def padToFour (cs : List Char) : List Char :=
  cs ++ List.replicate ((4 - cs.length % 4) % 4) '='

/-- Padded standard base64 as RFC 4648 describes it, written independently of
`EncodeToString`: the bytes are read as one stream of bits, the stream is cut into
six-bit groups, each group is replaced by its character of the standard alphabet, and
the text is padded with `=` to a multiple of four characters. -/
def specStdBase64 (bytes : List Nat) : String :=
  String.mk (padToFour ((sextets (bytes.flatMap byteBits)).map stdAlphabetChar))

/-- The UTF-8 bytes of a string as the core library of Lean encodes them,
independent of `stringBytes`. -/
def specUTF8 (s : String) : List Nat :=
  s.toUTF8.data.toList.map UInt8.toNat

/-! ## Sample inputs -/

/-- A library whose parser reads the token text `"es"` as an ECDSA token and `"hs"`
as an HMAC token, both with claims `group = "admin"` and `roles = [7, "dev"]`, and
whose verifier accepts everything. -/
def sampleLib : Lib where
  AuthorizationHeaderExtractor := fun h =>
    match h.lookup "Authorization" with
    | some (v :: _) => .ok v
    | _ => .error .ErrNoTokenInRequest
  ParseUnverified := fun raw =>
    let claims : MapClaims :=
      [("group", .str "admin"), ("roles", .arr [.num ⟨7⟩, .str "dev"])]
    if raw = "es" then some { Raw := raw, Method := .ECDSA "ES256", Claims := claims, Valid := false }
    else if raw = "hs" then
      some { Raw := raw, Method := .HMAC "HS256", Claims := claims, Valid := false }
    else none
  Verify := fun _ _ => true
  ValidAtParse := fun _ => true
  ValidAtCheck := fun _ => true
  Marshal := fun _ => some []
  CanonicalMIMEHeaderKey := fun k => k

/-- A server in static mode that requires `group = admin` and has no
`responseHeaders` configured. -/
def sampleServer : server where
  PublicKey := ⟨1, 2⟩
  ClaimsSource := "static"
  StaticClaims := [[("group", ["admin"])]]
  CookieNames := ["auth"]
  ResponseHeaders := none

/-- A fresh response writer. -/
def freshWriter : ResponseWriter where
  header := []
  wroteHeader := none

/-- A request that carries the token text `tok` in the cookie `auth`. -/
def sampleRequest (method tok : String) (query : StringListMap) : Request where
  Method := method
  Query := query
  Cookies := [⟨"auth", tok⟩]
  Header := []

/-- The sample library with the Authorization header extractor of jwt-go. -/
def jwtLib : Lib :=
  { sampleLib with AuthorizationHeaderExtractor := AuthorizationHeaderExtractor }

/-- A request without cookies whose `Authorization` header has the value `ah`. -/
def bearerRequest (ah : String) : Request where
  Method := "GET"
  Query := []
  Cookies := []
  Header := [("Authorization", [ah])]

/-- A world in which every file holds the configuration `cfg` and every PEM text
parses to the key `(1, 2)`. -/
def sampleSys (cfg : config) : Sys where
  ReadFile := fun _ => some "yaml"
  Unmarshal := fun _ => some cfg
  Getenv := fun _ => "pem"
  ParseECPublicKeyFromPEM := fun _ => some ⟨1, 2⟩

/-- A configuration in static mode with one inline key. -/
def sampleConfig : config where
  ValidationKeys := [{ KeyType := "ecPublicKey", KeyMaterial := "pem", KeyFrom := none }]
  ClaimsSource := "static"
  StaticClaims := [[("group", ["admin"])]]
  CookieNames := ["auth"]
  ResponseHeaders := none

/-- The sample server with the base mapping `X-Group ↦ group`, `X-None ↦ absent`. -/
def projectionServer : server :=
  { sampleServer with ResponseHeaders := some [("X-Group", "group"), ("X-None", "absent")] }

/-- A request with the query `responses_X-Roles=roles&responses_X-Group=sub`. -/
def projectionRequest : Request :=
  sampleRequest "GET" "es" [("responses_X-Roles", ["roles"]), ("responses_X-Group", ["sub"])]

/-- Claims with a string, a sequence and a number. -/
def projectionClaims : MapClaims :=
  [("sub", .str "alice"), ("group", .str "admin"), ("roles", .arr [.str "dev"]),
    ("exp", .num ⟨60⟩)]

/-- The sample library with a `json.Marshal` that knows two values: the sequence
`["dev"]`, serialized as the seven bytes of the text `["dev"]`, and the string
`alice`, serialized with its quotes as the seven bytes of `"alice"`. -/
def marshalLib : Lib :=
  { sampleLib with
    Marshal := fun v =>
      match v with
      | .arr [.str "dev"] => some [91, 34, 100, 101, 118, 34, 93]
      | .str "alice" => some [34, 97, 108, 105, 99, 101, 34]
      | _ => none }

/-- The response headers after `writeResponseHeaders` on a writer whose headers are
`before`, for the base mapping `X-User ↦ sub`, no query, and the one claim
`sub = claim`. -/
def projectSub (lib : Lib) (before : StringListMap) (claim : JValue) : StringListMap :=
  (writeResponseHeaders lib { sampleServer with ResponseHeaders := some [("X-User", "sub")] }
    ⟨{ header := before, wroteHeader := none }, 0⟩ (sampleRequest "GET" "es" [])
    [("sub", claim)]).2.1.ResponseWriter.header

/-! ## The single-claim matching rule -/

theorem contains_iff (haystack : List String) (needle : String) :
    contains haystack needle = true ↔ needle ∈ haystack := by
  induction haystack with
  | nil => simp [contains]
  | cons v rest ih =>
    by_cases hv : v = needle
    · simp [contains, hv]
    · have hne : ¬ needle = v := fun h => hv h.symm
      simp [contains, hv, hne, ih]

theorem findInList_of_strings (validValues : List String) (xs : List JValue)
    (hxs : ∀ v ∈ xs, ∃ s, v = JValue.str s) :
    ∃ b, findInList validValues xs = .ok b ∧
      (b = true ↔ ∃ s, JValue.str s ∈ xs ∧ s ∈ validValues) := by
  induction xs with
  | nil => exact ⟨false, rfl, by simp⟩
  | cons x rest ih =>
    obtain ⟨s, rfl⟩ := hxs x (List.mem_cons_self _ _)
    obtain ⟨b, hb, hiff⟩ := ih (fun v hv => hxs v (List.mem_cons_of_mem _ hv))
    by_cases hc : contains validValues s = true
    · refine ⟨true, by simp [findInList, assertString, hc], ?_⟩
      simp only [true_iff]
      exact ⟨s, List.mem_cons_self _ _, (contains_iff _ _).1 hc⟩
    · refine ⟨b, by simp [findInList, assertString, hc, hb], ?_⟩
      rw [hiff]
      constructor
      · rintro ⟨t, ht, htv⟩
        exact ⟨t, List.mem_cons_of_mem _ ht, htv⟩
      · rintro ⟨t, ht, htv⟩
        rcases List.mem_cons.1 ht with heq | hmem
        · injection heq with hts
          subst hts
          exact absurd ((contains_iff _ _).2 htv) hc
        · exact ⟨t, hmem, htv⟩

theorem checkClaim_defined (claimName : String) (validValues : List String)
    (claims : MapClaims) (h : SequencesHoldStrings claims) :
    ∃ b, checkClaim claimName validValues claims = .ok b := by
  unfold checkClaim
  cases hl : claims.lookup claimName with
  | none => exact ⟨false, rfl⟩
  | some v =>
    cases v with
    | str a => exact ⟨_, rfl⟩
    | arr xs =>
      obtain ⟨b, hb, -⟩ := findInList_of_strings validValues xs (h claimName xs hl)
      exact ⟨b, hb⟩
    | null => exact ⟨false, rfl⟩
    | bool b => exact ⟨false, rfl⟩
    | num f => exact ⟨false, rfl⟩
    | obj kvs => exact ⟨false, rfl⟩

theorem checkClaim_sequence_of_strings (claimName : String) (validValues : List String)
    (claims : MapClaims) (xs : List JValue) (hl : claims.lookup claimName = some (.arr xs))
    (hxs : ∀ v ∈ xs, ∃ s, v = JValue.str s) :
    ∃ b, checkClaim claimName validValues claims = .ok b ∧
      (b = true ↔ ∃ s, JValue.str s ∈ xs ∧ s ∈ validValues) := by
  obtain ⟨b, hb, hiff⟩ := findInList_of_strings validValues xs hxs
  exact ⟨b, by simp [checkClaim, hl, hb], hiff⟩

/-- C1 (the code departs from it): the claim `roles` is the sequence `[7, "dev"]`,
whose second element is a string and a member of the acceptable values `["dev"]`,
yet `checkClaim` does not return true: the assertion `actual.(string)` on the
number panics before `"dev"` is reached. -/
theorem checkClaim_sequence_with_non_string_panics :
    (∃ s, JValue.str s ∈ [JValue.num ⟨7⟩, JValue.str "dev"] ∧ s ∈ ["dev"]) ∧
      checkClaim "roles" ["dev"] [("roles", .arr [.num ⟨7⟩, .str "dev"])] =
        .error .typeAssertion :=
  ⟨⟨"dev", by simp, by simp⟩, by decide⟩

/-- C2: when the claim is not a sequence, `checkClaim` returns, and it returns true
exactly when the claim is present, is a string, and that string is among the
acceptable values; it returns false when the claim is absent, null, a boolean, a
number or a nested mapping. -/
theorem checkClaim_non_sequence (claimName : String) (validValues : List String)
    (claims : MapClaims) (h : ∀ xs, claims.lookup claimName ≠ some (.arr xs)) :
    (∃ b, checkClaim claimName validValues claims = .ok b ∧
      (b = true ↔ ∃ s, claims.lookup claimName = some (.str s) ∧ s ∈ validValues)) ∧
    ((claims.lookup claimName = none ∨ claims.lookup claimName = some .null ∨
        (∃ b, claims.lookup claimName = some (.bool b)) ∨
        (∃ f, claims.lookup claimName = some (.num f)) ∨
        (∃ kvs, claims.lookup claimName = some (.obj kvs))) →
      checkClaim claimName validValues claims = .ok false) := by
  unfold checkClaim
  cases hl : claims.lookup claimName with
  | none => exact ⟨⟨false, rfl, by simp⟩, fun _ => rfl⟩
  | some v =>
    cases v with
    | str a =>
      refine ⟨⟨contains validValues a, rfl, ?_⟩, ?_⟩
      · rw [contains_iff]
        constructor
        · intro ha
          exact ⟨a, rfl, ha⟩
        · rintro ⟨t, ht, htv⟩
          injection ht with ht
          injection ht with ht
          subst ht
          exact htv
      · intro hcase
        simp at hcase
    | arr xs => exact absurd hl (h xs)
    | null => exact ⟨⟨false, rfl, by simp⟩, fun _ => rfl⟩
    | bool b => exact ⟨⟨false, rfl, by simp⟩, fun _ => rfl⟩
    | num f => exact ⟨⟨false, rfl, by simp⟩, fun _ => rfl⟩
    | obj kvs => exact ⟨⟨false, rfl, by simp⟩, fun _ => rfl⟩

/-- Witness of C2: the claim `group` is the string `"admin"`. -/
theorem checkClaim_non_sequence_witness :
    (∃ b, checkClaim "group" ["admin", "ops"] [("group", .str "admin")] = .ok b ∧
      (b = true ↔ ∃ s, List.lookup "group" [("group", JValue.str "admin")] = some (.str s) ∧
        s ∈ ["admin", "ops"])) ∧
    ((List.lookup "group" [("group", JValue.str "admin")] = none ∨
        List.lookup "group" [("group", JValue.str "admin")] = some .null ∨
        (∃ b, List.lookup "group" [("group", JValue.str "admin")] = some (.bool b)) ∨
        (∃ f, List.lookup "group" [("group", JValue.str "admin")] = some (.num f)) ∨
        (∃ kvs, List.lookup "group" [("group", JValue.str "admin")] = some (.obj kvs))) →
      checkClaim "group" ["admin", "ops"] [("group", .str "admin")] = .ok false) :=
  checkClaim_non_sequence "group" ["admin", "ops"] [("group", .str "admin")]
    (by intro xs hx; simp [List.lookup] at hx)

/-! ## Static mode -/

theorem checkClaimSet_spec (claims : MapClaims) (h : SequencesHoldStrings claims)
    (claimSet : StringListMap) :
    ∃ b, checkClaimSet claims claimSet = .ok b ∧
      (b = true ↔ ∀ e ∈ claimSet, checkClaim e.1 e.2 claims = .ok true) := by
  induction claimSet with
  | nil => exact ⟨true, rfl, by simp⟩
  | cons e rest ih =>
    obtain ⟨claimName, validValues⟩ := e
    obtain ⟨b, hb, hiff⟩ := ih
    obtain ⟨c, hc⟩ := checkClaim_defined claimName validValues claims h
    cases c with
    | false =>
      refine ⟨false, by simp [checkClaimSet, hc], ?_⟩
      simp [hc]
    | true =>
      refine ⟨b, by simp [checkClaimSet, hc, hb], ?_⟩
      simp [hc, hiff]

theorem staticLoop_spec (claims : MapClaims) (h : SequencesHoldStrings claims)
    (sets : List StringListMap) (valid : Bool) :
    ∃ b, staticLoop claims sets valid = .ok b ∧
      (b = true ↔ (sets = [] ∧ valid = true) ∨
        ∃ claimSet ∈ sets, ∀ e ∈ claimSet, checkClaim e.1 e.2 claims = .ok true) := by
  induction sets generalizing valid with
  | nil => exact ⟨valid, rfl, by simp⟩
  | cons claimSet rest ih =>
    obtain ⟨c, hc, hciff⟩ := checkClaimSet_spec claims h claimSet
    cases c with
    | true =>
      refine ⟨true, by simp [staticLoop, hc], ?_⟩
      simp only [true_iff]
      exact Or.inr ⟨claimSet, List.mem_cons_self _ _, hciff.1 rfl⟩
    | false =>
      obtain ⟨b, hb, hiff⟩ := ih false
      refine ⟨b, by simp [staticLoop, hc, hb], ?_⟩
      have hnot : ¬ ∀ e ∈ claimSet, checkClaim e.1 e.2 claims = .ok true := by
        intro hall
        have := hciff.2 hall
        simp at this
      rw [hiff]
      constructor
      · rintro (⟨-, hf⟩ | ⟨cs, hcs, hall⟩)
        · simp at hf
        · exact Or.inr ⟨cs, List.mem_cons_of_mem _ hcs, hall⟩
      · rintro (⟨hnil, -⟩ | ⟨cs, hcs, hall⟩)
        · simp at hnil
        · rcases List.mem_cons.1 hcs with heq | hmem
          · subst heq
            exact absurd hall hnot
          · exact Or.inr ⟨cs, hmem, hall⟩

/-- C3: on claims whose sequences hold strings only, `staticClaimValidator`
returns, and it returns true exactly when some claim set of the requirement has
every entry pass `checkClaim`; so the empty requirement gives false and a
requirement that contains an empty claim set gives true. -/
theorem staticClaimValidator_iff (s : server) (claims : MapClaims)
    (h : SequencesHoldStrings claims) :
    (∃ b, staticClaimValidator s claims = .ok b ∧
      (b = true ↔ ∃ claimSet ∈ s.StaticClaims,
        ∀ e ∈ claimSet, checkClaim e.1 e.2 claims = .ok true)) ∧
    (s.StaticClaims = [] → staticClaimValidator s claims = .ok false) ∧
    ([] ∈ s.StaticClaims → staticClaimValidator s claims = .ok true) := by
  obtain ⟨b, hb, hiff⟩ := staticLoop_spec claims h s.StaticClaims false
  have hiff2 : b = true ↔ ∃ claimSet ∈ s.StaticClaims,
      ∀ e ∈ claimSet, checkClaim e.1 e.2 claims = .ok true := by
    rw [hiff]
    simp
  refine ⟨⟨b, hb, hiff2⟩, ?_, ?_⟩
  · intro hnil
    simp [staticClaimValidator, hnil, staticLoop]
  · intro hmem
    have hbt : b = true := hiff2.2 ⟨[], hmem, by simp⟩
    rw [← hbt]
    exact hb

theorem sequencesHoldStrings_sample :
    SequencesHoldStrings [("group", .str "admin"), ("roles", .arr [.str "ops", .str "dev"])] := by
  intro name xs hl v hv
  by_cases h1 : name = "group"
  · subst h1
    simp [List.lookup] at hl
  · by_cases h2 : name = "roles"
    · subst h2
      simp [List.lookup] at hl
      subst hl
      simp at hv
      rcases hv with rfl | rfl
      · exact ⟨_, rfl⟩
      · exact ⟨_, rfl⟩
    · have e1 : (name == "group") = false := by simpa using h1
      have e2 : (name == "roles") = false := by simpa using h2
      simp [List.lookup, e1, e2] at hl

/-- Witness of C3: the requirement `[[group ∈ {root}], [roles ∈ {dev}]]` against
claims `group = "admin"`, `roles = ["ops", "dev"]`. -/
theorem staticClaimValidator_iff_witness :
    (∃ b, staticClaimValidator
        { sampleServer with StaticClaims := [[("group", ["root"])], [("roles", ["dev"])]] }
        [("group", .str "admin"), ("roles", .arr [.str "ops", .str "dev"])] = .ok b ∧
      (b = true ↔ ∃ claimSet ∈ [[("group", ["root"])], [("roles", ["dev"])]],
        ∀ e ∈ claimSet, checkClaim e.1 e.2
          [("group", .str "admin"), ("roles", .arr [.str "ops", .str "dev"])] = .ok true)) ∧
    (([[("group", ["root"])], [("roles", ["dev"])]] : List StringListMap) = [] →
      staticClaimValidator
        { sampleServer with StaticClaims := [[("group", ["root"])], [("roles", ["dev"])]] }
        [("group", .str "admin"), ("roles", .arr [.str "ops", .str "dev"])] = .ok false) ∧
    ([] ∈ ([[("group", ["root"])], [("roles", ["dev"])]] : List StringListMap) →
      staticClaimValidator
        { sampleServer with StaticClaims := [[("group", ["root"])], [("roles", ["dev"])]] }
        [("group", .str "admin"), ("roles", .arr [.str "ops", .str "dev"])] = .ok true) :=
  staticClaimValidator_iff
    { sampleServer with StaticClaims := [[("group", ["root"])], [("roles", ["dev"])]] }
    [("group", .str "admin"), ("roles", .arr [.str "ops", .str "dev"])]
    sequencesHoldStrings_sample

/-! ## Query-string mode -/

theorem hasPrefix_iff (k pre : String) : hasPrefix k pre = true ↔ ∃ n, k = pre ++ n := by
  unfold hasPrefix
  rw [List.isPrefixOf_iff_prefix]
  constructor
  · rintro ⟨t, ht⟩
    refine ⟨String.mk t, ?_⟩
    apply String.ext
    simp [String.data_append, ht]
  · rintro ⟨n, rfl⟩
    exact ⟨n.data, by simp [String.data_append]⟩

theorem trimPrefix_append (pre n : String) : trimPrefix (pre ++ n) pre = n := by
  have hp : hasPrefix (pre ++ n) pre = true := (hasPrefix_iff _ _).2 ⟨n, rfl⟩
  unfold trimPrefix
  rw [if_pos hp]
  apply String.ext
  simp [String.data_append]

theorem hasClaimsPrefixedKey_eq (q : StringListMap) (found : Bool) :
    hasClaimsPrefixedKey q found =
      (found || (q.filter (fun kv => hasPrefix kv.1 "claims_")).length != 0) := by
  induction q generalizing found with
  | nil => simp [hasClaimsPrefixedKey]
  | cons kv rest ih =>
    obtain ⟨key, value⟩ := kv
    by_cases hk : hasPrefix key "claims_" = true
    · simp [hasClaimsPrefixedKey, ih, hk, List.filter]
    · simp [hasClaimsPrefixedKey, ih, hk, List.filter]

theorem queryLoop_filter (claims : MapClaims) (q : StringListMap) :
    queryLoop claims q = queryLoop claims (q.filter (fun kv => hasPrefix kv.1 "claims_")) := by
  induction q with
  | nil => rfl
  | cons kv rest ih =>
    obtain ⟨key, value⟩ := kv
    by_cases hk : hasPrefix key "claims_" = true
    · simp only [List.filter, hk, queryLoop, if_true]
      rw [ih]
    · simp only [List.filter, hk, queryLoop]
      simpa using ih

theorem queryStringClaimValidator_filter (s : server) (claims : MapClaims) (r : Request) :
    queryStringClaimValidator s claims r =
      if (r.Query.filter (fun kv => hasPrefix kv.1 "claims_")).length = 0 then .ok false
      else queryLoop claims (r.Query.filter (fun kv => hasPrefix kv.1 "claims_")) := by
  unfold queryStringClaimValidator
  simp only [hasClaimsPrefixedKey_eq, Bool.false_or]
  by_cases hf : (r.Query.filter (fun kv => hasPrefix kv.1 "claims_")).length = 0
  · simp [hf]
  · have hlen : r.Query.length ≠ 0 := by
      intro h0
      have : r.Query = [] := List.length_eq_zero.1 h0
      simp [this] at hf
    rw [if_neg hf, ← queryLoop_filter]
    simp [hlen, hf]

theorem queryLoop_spec (claims : MapClaims) (h : SequencesHoldStrings claims)
    (q : StringListMap) :
    ∃ b, queryLoop claims q = .ok b ∧
      (b = true ↔ ∀ name validValues, ("claims_" ++ name, validValues) ∈ q →
        checkClaim name validValues claims = .ok true) := by
  induction q with
  | nil => exact ⟨true, rfl, by simp⟩
  | cons kv rest ih =>
    obtain ⟨key, value⟩ := kv
    obtain ⟨b, hb, hiff⟩ := ih
    by_cases hk : hasPrefix key "claims_" = true
    · obtain ⟨n, rfl⟩ := (hasPrefix_iff _ _).1 hk
      obtain ⟨c, hc⟩ := checkClaim_defined n value claims h
      cases c with
      | false =>
        refine ⟨false, by simp [queryLoop, hk, trimPrefix_append, hc], ?_⟩
        simp only [Bool.false_eq_true, false_iff]
        intro hall
        have := hall n value (List.mem_cons_self _ _)
        rw [hc] at this
        simp at this
      | true =>
        refine ⟨b, by simp [queryLoop, hk, trimPrefix_append, hc, hb], ?_⟩
        rw [hiff]
        constructor
        · intro hall name validValues hmem
          rcases List.mem_cons.1 hmem with heq | hmem
          · injection heq with h1 h2
            have hn : name = n := by
              have := congrArg String.data h1
              simp only [String.data_append] at this
              exact String.ext (List.append_cancel_left this)
            subst hn
            subst h2
            exact hc
          · exact hall name validValues hmem
        · intro hall name validValues hmem
          exact hall name validValues (List.mem_cons_of_mem _ hmem)
    · refine ⟨b, by simp [queryLoop, hk, hb], ?_⟩
      rw [hiff]
      constructor
      · intro hall name validValues hmem
        rcases List.mem_cons.1 hmem with heq | hmem
        · injection heq with h1 h2
          exact absurd ((hasPrefix_iff _ _).2 ⟨name, h1.symm⟩) hk
        · exact hall name validValues hmem
      · intro hall name validValues hmem
        exact hall name validValues (List.mem_cons_of_mem _ hmem)

/-- C4: when the query has a key prefixed `claims_` and the sequences of the claims
hold strings only, `queryStringClaimValidator` returns, and it returns true exactly
when every parameter `claims_N` with values `V` has `checkClaim N V` true; and two
queries with the same `claims_` parameters get the same decision, whatever their
other parameters are. -/
theorem queryStringClaimValidator_iff (s : server) (claims : MapClaims) (r : Request)
    (hkey : ∃ kv ∈ r.Query, hasPrefix kv.1 "claims_" = true)
    (h : SequencesHoldStrings claims) :
    (∃ b, queryStringClaimValidator s claims r = .ok b ∧
      (b = true ↔ ∀ name validValues, ("claims_" ++ name, validValues) ∈ r.Query →
        checkClaim name validValues claims = .ok true)) ∧
    (∀ r2 : Request,
      r2.Query.filter (fun kv => hasPrefix kv.1 "claims_") =
        r.Query.filter (fun kv => hasPrefix kv.1 "claims_") →
      queryStringClaimValidator s claims r2 = queryStringClaimValidator s claims r) := by
  constructor
  · obtain ⟨b, hb, hiff⟩ := queryLoop_spec claims h r.Query
    refine ⟨b, ?_, hiff⟩
    rw [queryStringClaimValidator_filter, ← queryLoop_filter, hb]
    obtain ⟨kv, hmem, hp⟩ := hkey
    have hne : (r.Query.filter (fun kv => hasPrefix kv.1 "claims_")).length ≠ 0 := by
      intro h0
      have hnil := List.length_eq_zero.1 h0
      have : kv ∈ r.Query.filter (fun kv => hasPrefix kv.1 "claims_") :=
        List.mem_filter.2 ⟨hmem, hp⟩
      rw [hnil] at this
      simp at this
    rw [if_neg hne]
  · intro r2 heq
    rw [queryStringClaimValidator_filter, queryStringClaimValidator_filter, heq]

/-- Witness of C4: the query `claims_roles=dev&foo=bar`. -/
theorem queryStringClaimValidator_iff_witness :
    (∃ b, queryStringClaimValidator sampleServer
        [("group", .str "admin"), ("roles", .arr [.str "ops", .str "dev"])]
        (sampleRequest "GET" "es" [("claims_roles", ["dev"]), ("foo", ["bar"])]) = .ok b ∧
      (b = true ↔ ∀ name validValues, ("claims_" ++ name, validValues) ∈
          (sampleRequest "GET" "es" [("claims_roles", ["dev"]), ("foo", ["bar"])]).Query →
        checkClaim name validValues
          [("group", .str "admin"), ("roles", .arr [.str "ops", .str "dev"])] = .ok true)) ∧
    (∀ r2 : Request,
      r2.Query.filter (fun kv => hasPrefix kv.1 "claims_") =
        (sampleRequest "GET" "es" [("claims_roles", ["dev"]), ("foo", ["bar"])]).Query.filter
          (fun kv => hasPrefix kv.1 "claims_") →
      queryStringClaimValidator sampleServer
          [("group", .str "admin"), ("roles", .arr [.str "ops", .str "dev"])] r2 =
        queryStringClaimValidator sampleServer
          [("group", .str "admin"), ("roles", .arr [.str "ops", .str "dev"])]
          (sampleRequest "GET" "es" [("claims_roles", ["dev"]), ("foo", ["bar"])])) :=
  queryStringClaimValidator_iff sampleServer
    [("group", .str "admin"), ("roles", .arr [.str "ops", .str "dev"])]
    (sampleRequest "GET" "es" [("claims_roles", ["dev"]), ("foo", ["bar"])])
    ⟨("claims_roles", ["dev"]), by simp [sampleRequest], by decide⟩
    sequencesHoldStrings_sample

/-- C5: when no key of the query is prefixed `claims_`, in particular when the query
is empty, `queryStringClaimValidator` returns false, whatever the claims hold. -/
theorem queryStringClaimValidator_no_prefixed_key (s : server) (claims : MapClaims)
    (r : Request) (h : ∀ kv ∈ r.Query, hasPrefix kv.1 "claims_" = false) :
    queryStringClaimValidator s claims r = .ok false := by
  rw [queryStringClaimValidator_filter]
  have hnil : r.Query.filter (fun kv => hasPrefix kv.1 "claims_") = [] := by
    rw [List.filter_eq_nil_iff]
    intro kv hmem
    simp [h kv hmem]
  simp [hnil]

/-- Witness of C5: the query `foo=bar`, against claims that hold a non-string in a
sequence. -/
theorem queryStringClaimValidator_no_prefixed_key_witness :
    queryStringClaimValidator sampleServer [("roles", .arr [.num ⟨7⟩, .str "dev"])]
      (sampleRequest "GET" "es" [("foo", ["bar"])]) = .ok false :=
  queryStringClaimValidator_no_prefixed_key sampleServer [("roles", .arr [.num ⟨7⟩, .str "dev"])]
    (sampleRequest "GET" "es" [("foo", ["bar"])])
    (by
      intro kv hmem
      simp [sampleRequest] at hmem
      subst hmem
      decide)

/-! ## The policy engine can panic -/

/-- C6 (the code departs from it): on the claims `roles = [7, "dev"]` each of
`checkClaim`, `staticClaimValidator` and `queryStringClaimValidator` panics on the
assertion `actual.(string)` instead of returning a boolean. -/
theorem policy_engine_panics :
    checkClaim "roles" ["dev"] [("roles", .arr [.num ⟨7⟩, .str "dev"])] =
        .error .typeAssertion ∧
    staticClaimValidator { sampleServer with StaticClaims := [[("roles", ["dev"])]] }
        [("roles", .arr [.num ⟨7⟩, .str "dev"])] = .error .typeAssertion ∧
    queryStringClaimValidator sampleServer [("roles", .arr [.num ⟨7⟩, .str "dev"])]
        (sampleRequest "GET" "es" [("claims_roles", ["dev"])]) = .error .typeAssertion := by
  decide

/-! ## Token verification -/

theorem verified_unique (lib : Lib) (s : server) (r : Request) (c1 c2 : MapClaims)
    (h1 : Verified lib s r c1) (h2 : Verified lib s r c2) : c1 = c2 := by
  obtain ⟨raw1, t1, -, hx1, hp1, -, -, -, -, rfl⟩ := h1
  obtain ⟨raw2, t2, -, hx2, hp2, -, -, -, -, rfl⟩ := h2
  rw [hx1] at hx2
  injection hx2 with hraw
  subst hraw
  rw [hp1] at hp2
  injection hp2 with ht
  rw [ht]

/-! ## The request handler -/

theorem validate_denied (lib : Lib) (s : server) (c : Counters) (rw : ResponseWriter)
    (r : Request) (hmeth : r.Method = "GET" ∨ r.Method = "HEAD") (claims : MapClaims)
    (hd : validateDeviceToken lib s r = .ok (claims, false)) :
    validate lib s c rw r =
      { s := s, requestsTotal := c.Inc "401",
        w := statusWriter.WriteHeader { ResponseWriter := rw, status := 0 } 401 } := by
  have hcond : ¬ (r.Method ≠ "GET" ∧ r.Method ≠ "HEAD") := by
    rintro ⟨h1, h2⟩
    rcases hmeth with h | h
    · exact h1 h
    · exact h2 h
  simp only [validate, if_neg hcond, hd]

theorem validate_panicked (lib : Lib) (s : server) (c : Counters) (rw : ResponseWriter)
    (r : Request) (hmeth : r.Method = "GET" ∨ r.Method = "HEAD") (e : Fault)
    (hd : validateDeviceToken lib s r = .error e) :
    validate lib s c rw r = recovered s c { ResponseWriter := rw, status := 0 } := by
  have hcond : ¬ (r.Method ≠ "GET" ∧ r.Method ≠ "HEAD") := by
    rintro ⟨h1, h2⟩
    rcases hmeth with h | h
    · exact h1 h
    · exact h2 h
  simp only [validate, if_neg hcond, hd]

theorem validate_accepted (lib : Lib) (s : server) (c : Counters) (rw : ResponseWriter)
    (r : Request) (hmeth : r.Method = "GET" ∨ r.Method = "HEAD") (claims : MapClaims)
    (hd : validateDeviceToken lib s r = .ok (claims, true)) :
    validate lib s c rw r =
      match writeResponseHeaders lib s { ResponseWriter := rw, status := 0 } r claims with
      | (s2, w2, some _) => recovered s2 (c.Inc "200") w2
      | (s2, w2, none) => { s := s2, requestsTotal := c.Inc "200", w := w2.WriteHeader 200 } := by
  have hcond : ¬ (r.Method ≠ "GET" ∧ r.Method ≠ "HEAD") := by
    rintro ⟨h1, h2⟩
    rcases hmeth with h | h
    · exact h1 h
    · exact h2 h
  simp only [validate, if_neg hcond, hd]

theorem writeResponseHeaders_wroteHeader (lib : Lib) (s : server) (w : statusWriter)
    (r : Request) (claims : MapClaims) :
    (writeResponseHeaders lib s w r claims).2.1.ResponseWriter.wroteHeader =
      w.ResponseWriter.wroteHeader := by
  unfold writeResponseHeaders
  dsimp only
  generalize extendResponseHeaders r.Query s.ResponseHeaders = res
  obtain ⟨m, f⟩ := res
  cases m <;> cases f <;> rfl

theorem statusWriter_WriteHeader_fresh (w : statusWriter) (n : Nat)
    (hfresh : w.ResponseWriter.wroteHeader = none) :
    (w.WriteHeader n).ResponseWriter.wroteHeader = some (w.WriteHeader n).status := by
  simp [statusWriter.WriteHeader, ResponseWriter.WriteHeader, hfresh]

theorem validate_wroteHeader (lib : Lib) (s : server) (c : Counters) (rw : ResponseWriter)
    (r : Request) (hfresh : rw.wroteHeader = none) :
    (validate lib s c rw r).w.ResponseWriter.wroteHeader =
      some (validate lib s c rw r).w.status := by
  unfold validate
  split
  · exact statusWriter_WriteHeader_fresh _ _ hfresh
  · split
    · exact statusWriter_WriteHeader_fresh _ _ hfresh
    · exact statusWriter_WriteHeader_fresh _ _ hfresh
    · rename_i claims _
      dsimp only
      have hkeep := writeResponseHeaders_wroteHeader lib s ⟨rw, 0⟩ r claims
      generalize writeResponseHeaders lib s ⟨rw, 0⟩ r claims = res at hkeep
      obtain ⟨s2, w2, f⟩ := res
      have hw2 : w2.ResponseWriter.wroteHeader = none := by
        rw [← hfresh]
        exact hkeep
      cases f with
      | some fault => exact statusWriter_WriteHeader_fresh _ _ hw2
      | none => exact statusWriter_WriteHeader_fresh _ _ hw2

/-- C7: for a token whose signing method is not an ECDSA method the key function
returns an error, so parsing stops as unverifiable before the signature check,
`validateDeviceToken` returns not ok and a GET or HEAD request is answered 401,
whatever the claims and whatever the verifier would say; for an ECDSA method the key
function returns the configured public key. -/
theorem keyFunc_rejects_non_ecdsa (lib : Lib) (s : server) (c : Counters)
    (rw : ResponseWriter) (r : Request) (raw : String) (token : Token)
    (hm : ∀ name, token.Method ≠ .ECDSA name)
    (hx : extractor lib s r = .ok raw) (hp : lib.ParseUnverified raw = some token)
    (hmeth : r.Method = "GET" ∨ r.Method = "HEAD") :
    (∃ e, keyFunc s token = .error e) ∧
    ParseWithClaims lib raw (keyFunc s) = .error .unverifiable ∧
    validateDeviceToken lib s r = .ok ([], false) ∧
    (validate lib s c rw r).w.status = 401 ∧
    (∀ name, keyFunc s { token with Method := .ECDSA name } = .ok s.PublicKey) := by
  have hk : keyFunc s token = .error "Unexpected signing method" := by
    unfold keyFunc
    cases hmt : token.Method with
    | ECDSA name => exact absurd hmt (hm name)
    | HMAC name => rfl
    | RSA name => rfl
    | RSAPSS name => rfl
    | unsecured => rfl
  have hparse : ParseWithClaims lib raw (keyFunc s) = .error .unverifiable := by
    simp [ParseWithClaims, hp, hk]
  have hd : validateDeviceToken lib s r = .ok ([], false) := by
    simp [validateDeviceToken, ParseFromRequest, hx, hparse]
  refine ⟨⟨_, hk⟩, hparse, hd, ?_, fun name => rfl⟩
  rw [validate_denied lib s c rw r hmeth [] hd]
  rfl

/-- Witness of C7: the sample library decodes the cookie value `"hs"` as an HMAC
token whose claims satisfy the policy of the sample server. -/
theorem keyFunc_rejects_non_ecdsa_witness :
    (∃ e, keyFunc sampleServer
        { Raw := "hs", Method := .HMAC "HS256",
          Claims := [("group", .str "admin"), ("roles", .arr [.num ⟨7⟩, .str "dev"])],
          Valid := false } = .error e) ∧
    ParseWithClaims sampleLib "hs" (keyFunc sampleServer) = .error .unverifiable ∧
    validateDeviceToken sampleLib sampleServer (sampleRequest "GET" "hs" []) =
      .ok ([], false) ∧
    (validate sampleLib sampleServer ⟨0, 0, 0, 0⟩ freshWriter
      (sampleRequest "GET" "hs" [])).w.status = 401 ∧
    (∀ name, keyFunc sampleServer
        { ({ Raw := "hs", Method := .HMAC "HS256",
             Claims := [("group", .str "admin"), ("roles", .arr [.num ⟨7⟩, .str "dev"])],
             Valid := false } : Token) with Method := .ECDSA name } =
      .ok sampleServer.PublicKey) :=
  keyFunc_rejects_non_ecdsa sampleLib sampleServer ⟨0, 0, 0, 0⟩ freshWriter
    (sampleRequest "GET" "hs" []) "hs"
    { Raw := "hs", Method := .HMAC "HS256",
      Claims := [("group", .str "admin"), ("roles", .arr [.num ⟨7⟩, .str "dev"])],
      Valid := false }
    (by intro name h; cases h) (by decide) (by rfl) (Or.inl rfl)

theorem extendResponseHeaders_no_key (q : StringListMap)
    (responseHeaders : Option (List (String × String)))
    (h : ∀ kv ∈ q, hasPrefix kv.1 "responses_" = false) :
    extendResponseHeaders q responseHeaders = (responseHeaders, none) := by
  induction q with
  | nil => rfl
  | cons kv rest ih =>
    obtain ⟨key, value⟩ := kv
    have hk : hasPrefix key "responses_" = false := h (key, value) (List.mem_cons_self _ _)
    simp only [extendResponseHeaders, hk]
    exact ih (fun kv hkv => h kv (List.mem_cons_of_mem _ hkv))

theorem extendResponseHeaders_some (q : StringListMap) (m : List (String × String))
    (hval : ∀ kv ∈ q, kv.2 ≠ []) :
    ∃ m2, extendResponseHeaders q (some m) = (some m2, none) := by
  induction q generalizing m with
  | nil => exact ⟨m, rfl⟩
  | cons kv rest ih =>
    obtain ⟨key, value⟩ := kv
    have hrest : ∀ kv ∈ rest, kv.2 ≠ [] := fun kv hkv => hval kv (List.mem_cons_of_mem _ hkv)
    by_cases hk : hasPrefix key "responses_" = true
    · cases value with
      | nil => exact absurd rfl (hval (key, []) (List.mem_cons_self _ _))
      | cons first more =>
        simp only [extendResponseHeaders, hk, if_true]
        exact ih _ hrest
    · simp only [extendResponseHeaders, hk]
      exact ih m hrest

theorem validate_accepted_200 (lib : Lib) (s : server) (c : Counters) (rw : ResponseWriter)
    (r : Request) (hmeth : r.Method = "GET" ∨ r.Method = "HEAD") (claims : MapClaims)
    (hd : validateDeviceToken lib s r = .ok (claims, true))
    (hbase : (∃ m, s.ResponseHeaders = some m ∧ ∀ kv ∈ r.Query, kv.2 ≠ []) ∨
      ∀ kv ∈ r.Query, hasPrefix kv.1 "responses_" = false) :
    (validate lib s c rw r).w.status = 200 := by
  rw [validate_accepted lib s c rw r hmeth claims hd]
  unfold writeResponseHeaders
  dsimp only
  rcases hbase with ⟨m, hm, hval⟩ | hno
  · obtain ⟨m2, hm2⟩ := extendResponseHeaders_some r.Query m hval
    rw [hm, hm2]
    rfl
  · rw [extendResponseHeaders_no_key r.Query s.ResponseHeaders hno]
    cases s.ResponseHeaders <;> rfl

/-- C9 (the code departs from it): the sample server has no `responseHeaders`
configured (the nil map); a GET request whose token is extracted, verified and
accepted by the policy, with the query `responses_X-User=group`, is answered 500:
line 376 assigns to an entry of the nil map before the nil check of line 380. -/
theorem validate_accepted_token_answered_500 :
    (∃ claims, validateDeviceToken sampleLib sampleServer
        (sampleRequest "GET" "es" [("responses_X-User", ["group"])]) = .ok (claims, true)) ∧
    (writeResponseHeaders sampleLib sampleServer ⟨freshWriter, 0⟩
        (sampleRequest "GET" "es" [("responses_X-User", ["group"])])
        [("group", .str "admin")]).2.2 = some .nilMapAssign ∧
    validate sampleLib sampleServer ⟨0, 0, 0, 0⟩ freshWriter
        (sampleRequest "GET" "es" [("responses_X-User", ["group"])]) =
      { s := sampleServer, requestsTotal := ⟨1, 0, 0, 1⟩,
        w := { ResponseWriter := { header := [], wroteHeader := some 500 }, status := 500 } } :=
  ⟨⟨_, rfl⟩, by decide, by decide⟩

theorem writeResponseHeaders_nil_no_key (lib : Lib) (s : server) (w : statusWriter)
    (r : Request) (claims : MapClaims) (hnil : s.ResponseHeaders = none)
    (hno : ∀ kv ∈ r.Query, hasPrefix kv.1 "responses_" = false) :
    writeResponseHeaders lib s w r claims = (s, w, none) := by
  unfold writeResponseHeaders
  dsimp only
  rw [extendResponseHeaders_no_key r.Query s.ResponseHeaders hno, hnil]
  cases s
  simp_all

/-- C11 (the code departs from it): with no `responseHeaders` configured (the nil
map) and the query `responses_X-User=group`, `writeResponseHeaders` does not skip
the projection and complete: line 376 assigns to an entry of the nil map and the
call panics, before the nil check of line 380 is reached. -/
theorem writeResponseHeaders_nil_base_panics :
    sampleServer.ResponseHeaders = none ∧
    writeResponseHeaders sampleLib sampleServer ⟨freshWriter, 0⟩
        (sampleRequest "GET" "es" [("responses_X-User", ["group"])])
        [("group", .str "admin")] =
      (sampleServer, ⟨freshWriter, 0⟩, some .nilMapAssign) :=
  ⟨rfl, by decide⟩

/-- C12 (the code departs from it): a request with the query
`responses_X-User=group` leaves the entry `X-User ↦ group` in the mapping of the
server, which was empty before, and a later request without any query is then
answered with the header `X-User`, which the same request does not get from the
server as configured. -/
theorem writeResponseHeaders_mutates_base :
    (writeResponseHeaders sampleLib { sampleServer with ResponseHeaders := some [] }
        ⟨freshWriter, 0⟩ (sampleRequest "GET" "es" [("responses_X-User", ["group"])])
        [("group", .str "admin")]).1.ResponseHeaders = some [("X-User", "group")] ∧
    (validate sampleLib
        (validate sampleLib { sampleServer with ResponseHeaders := some [] } ⟨0, 0, 0, 0⟩
          freshWriter (sampleRequest "GET" "es" [("responses_X-User", ["group"])])).s
        ⟨0, 0, 0, 0⟩ freshWriter (sampleRequest "GET" "es" [])).w.ResponseWriter.header =
      [("X-User", ["YWRtaW4="])] ∧
    (validate sampleLib { sampleServer with ResponseHeaders := some [] } ⟨0, 0, 0, 0⟩
        freshWriter (sampleRequest "GET" "es" [])).w.ResponseWriter.header = [] := by
  decide

theorem lookup_cons_if {β : Type} (a k : String) (b : β) (es : List (String × β)) :
    List.lookup a ((k, b) :: es) = if a = k then some b else List.lookup a es := by
  by_cases h : a = k
  · subst h
    simp [List.lookup]
  · have hb : (a == k) = false := by simpa using h
    simp [List.lookup, hb, h]

theorem lookup_mapAssign (m : List (String × String)) (k v H : String) :
    (mapAssign m k v).lookup H = if H = k then some v else m.lookup H := by
  induction m with
  | nil => simp [mapAssign, lookup_cons_if]
  | cons e rest ih =>
    obtain ⟨k2, v2⟩ := e
    by_cases hk : k2 = k
    · subst hk
      by_cases hH : H = k2
      · simp [mapAssign, lookup_cons_if, hH]
      · simp [mapAssign, lookup_cons_if, hH]
    · by_cases hH2 : H = k2
      · subst hH2
        simp [mapAssign, lookup_cons_if, hk]
      · simp only [mapAssign, hk, if_false, lookup_cons_if, hH2, ih]

theorem keys_mapAssign (m : List (String × String)) (k v : String) :
    (mapAssign m k v).map Prod.fst =
      if k ∈ m.map Prod.fst then m.map Prod.fst else m.map Prod.fst ++ [k] := by
  induction m with
  | nil => simp [mapAssign]
  | cons e rest ih =>
    obtain ⟨k2, v2⟩ := e
    by_cases hk : k2 = k
    · subst hk
      simp [mapAssign]
    · have hk2 : ¬ k = k2 := fun h => hk h.symm
      simp only [mapAssign, hk, if_false, List.map_cons, ih, List.mem_cons, hk2, false_or]
      by_cases hmem : k ∈ rest.map Prod.fst
      · simp [hmem]
      · simp [hmem]

theorem nodup_keys_mapAssign (m : List (String × String)) (k v : String)
    (h : (m.map Prod.fst).Nodup) : ((mapAssign m k v).map Prod.fst).Nodup := by
  rw [keys_mapAssign]
  by_cases hmem : k ∈ m.map Prod.fst
  · rw [if_pos hmem]
    exact h
  · rw [if_neg hmem]
    rw [List.nodup_append]
    refine ⟨h, List.nodup_singleton k, ?_⟩
    intro a ha hb
    rw [List.mem_singleton] at hb
    subst hb
    exact hmem ha

theorem responses_key_eq (key n H : String) (hkey : key = "responses_" ++ n) :
    key = "responses_" ++ H ↔ n = H := by
  subst hkey
  constructor
  · intro h
    have := congrArg String.data h
    simp only [String.data_append] at this
    exact String.ext (List.append_cancel_left this)
  · intro h
    rw [h]

theorem extendResponseHeaders_spec (q : StringListMap) (m : List (String × String))
    (hval : ∀ kv ∈ q, kv.2 ≠ []) :
    ∃ m2, extendResponseHeaders q (some m) = (some m2, none) ∧
      (∀ H, m2.lookup H =
        match overrideOf q H with
        | some claimName => some claimName
        | none => m.lookup H) ∧
      ((m.map Prod.fst).Nodup → (m2.map Prod.fst).Nodup) := by
  induction q generalizing m with
  | nil => exact ⟨m, rfl, fun H => by simp [overrideOf], fun h => h⟩
  | cons kv rest ih =>
    obtain ⟨key, value⟩ := kv
    have hrest : ∀ kv ∈ rest, kv.2 ≠ [] := fun kv hkv => hval kv (List.mem_cons_of_mem _ hkv)
    by_cases hk : hasPrefix key "responses_" = true
    · obtain ⟨n, hn⟩ := (hasPrefix_iff _ _).1 hk
      cases value with
      | nil => exact absurd rfl (hval (key, []) (List.mem_cons_self _ _))
      | cons first more =>
        obtain ⟨m2, hm2, hlook, hnodup⟩ := ih (mapAssign m (trimPrefix key "responses_") first) hrest
        refine ⟨m2, ?_, ?_, ?_⟩
        · simp only [extendResponseHeaders, hk, if_true]
          exact hm2
        · intro H
          rw [hlook H]
          simp only [overrideOf]
          cases overrideOf rest H with
          | some c => rfl
          | none =>
            have htrim : trimPrefix key "responses_" = n := by
              rw [hn]
              exact trimPrefix_append _ _
            rw [htrim, lookup_mapAssign]
            by_cases hH : H = n
            · subst hH
              simp [hn]
            · have hne : ¬ key = "responses_" ++ H := fun h =>
                hH ((responses_key_eq key n H hn).1 h).symm
              simp [hH, hne]
        · intro hnd
          exact hnodup (nodup_keys_mapAssign _ _ _ hnd)
    · obtain ⟨m2, hm2, hlook, hnodup⟩ := ih m hrest
      refine ⟨m2, ?_, ?_, hnodup⟩
      · simp only [extendResponseHeaders, hk]
        exact hm2
      · intro H
        rw [hlook H]
        simp only [overrideOf]
        cases overrideOf rest H with
        | some c => rfl
        | none =>
          have hne : ¬ key = "responses_" ++ H := fun h => hk ((hasPrefix_iff _ _).2 ⟨H, h⟩)
          simp [hne]

theorem lookup_appendValue (h : StringListMap) (k v K : String) :
    (appendValue h k v).lookup K =
      if K = k then some (headerValues h k ++ [v]) else h.lookup K := by
  induction h with
  | nil => simp [appendValue, lookup_cons_if, headerValues]
  | cons e rest ih =>
    obtain ⟨k2, vs⟩ := e
    by_cases hk : k2 = k
    · subst hk
      by_cases hK : K = k2
      · simp [appendValue, lookup_cons_if, hK, headerValues]
      · simp [appendValue, lookup_cons_if, hK]
    · by_cases hK2 : K = k2
      · subst hK2
        simp [appendValue, lookup_cons_if, hk]
      · have hk2 : ¬ k = k2 := fun h => hk h.symm
        simp only [appendValue, hk, if_false, lookup_cons_if, hK2, ih, headerValues, hk2]

theorem headerValues_appendValue (h : StringListMap) (k v K : String) :
    headerValues (appendValue h k v) K =
      headerValues h K ++ (if k = K then [v] else []) := by
  unfold headerValues
  rw [lookup_appendValue]
  by_cases hK : K = k
  · subst hK
    simp [headerValues]
  · have hK2 : ¬ k = K := fun h => hK h.symm
    simp [hK, hK2]

theorem headerValues_projectLoop (lib : Lib) (claims : MapClaims)
    (m : List (String × String)) (h : StringListMap) (K : String) :
    headerValues (projectLoop lib claims m h) K =
      headerValues h K ++ m.filterMap (fun e =>
        if lib.CanonicalMIMEHeaderKey e.1 = K then projectedValue lib claims e.2 else none) := by
  induction m generalizing h with
  | nil => simp [projectLoop]
  | cons e rest ih =>
    obtain ⟨header, claimName⟩ := e
    cases hl : claims.lookup claimName with
    | none =>
      simp only [projectLoop, hl, ih, List.filterMap_cons, projectedValue]
      simp
    | some claim =>
      cases ht : toClaim lib claim with
      | none =>
        simp only [projectLoop, hl, ht, ih, List.filterMap_cons, projectedValue]
        simp
      | some bytes =>
        simp only [projectLoop, hl, ht, ih, List.filterMap_cons, projectedValue, Header.Add,
          headerValues_appendValue, Option.map_some']
        by_cases hK : lib.CanonicalMIMEHeaderKey header = K
        · simp [hK]
        · simp [hK]

theorem projectedValue_isSome (lib : Lib) (claims : MapClaims)
    (hmarshal : ∀ name claim, claims.lookup name = some claim →
      ∃ bytes, lib.Marshal claim = some bytes) (claimName : String) :
    (projectedValue lib claims claimName).isSome = (claims.lookup claimName).isSome := by
  unfold projectedValue
  cases hl : claims.lookup claimName with
  | none => rfl
  | some claim =>
    obtain ⟨bytes, hb⟩ := hmarshal claimName claim hl
    cases claim <;> simp_all [toClaim]

/-- C13: with a base mapping present, `writeResponseHeaders` completes; the mapping
it projects has, for every header name `H`, the claim name given by the parameter
`responses_H` when the query has one and the claim name of the base mapping
otherwise, and has no name twice when the base has none twice; and under every
header name the values afterwards are the values before followed by one value for
each entry of that mapping with this (canonical) name whose claim is present, so
an entry whose claim is absent adds nothing and nothing else is added. -/
theorem writeResponseHeaders_projects_merged (lib : Lib) (s : server) (w : statusWriter)
    (r : Request) (claims : MapClaims) (base : List (String × String))
    (hbase : s.ResponseHeaders = some base)
    (hval : ∀ kv ∈ r.Query, kv.2 ≠ [])
    (hmarshal : ∀ name claim, claims.lookup name = some claim →
      ∃ bytes, lib.Marshal claim = some bytes) :
    ∃ merged,
      (writeResponseHeaders lib s w r claims).1.ResponseHeaders = some merged ∧
      (writeResponseHeaders lib s w r claims).2.2 = none ∧
      (∀ H, merged.lookup H =
        match overrideOf r.Query H with
        | some claimName => some claimName
        | none => base.lookup H) ∧
      ((base.map Prod.fst).Nodup → (merged.map Prod.fst).Nodup) ∧
      (∀ K, headerValues (writeResponseHeaders lib s w r claims).2.1.ResponseWriter.header K =
        headerValues w.ResponseWriter.header K ++ merged.filterMap (fun e =>
          if lib.CanonicalMIMEHeaderKey e.1 = K then projectedValue lib claims e.2 else none)) ∧
      (∀ claimName,
        (projectedValue lib claims claimName).isSome = (claims.lookup claimName).isSome) := by
  obtain ⟨merged, hm, hlook, hnodup⟩ := extendResponseHeaders_spec r.Query base hval
  refine ⟨merged, ?_, ?_, hlook, hnodup, ?_, projectedValue_isSome lib claims hmarshal⟩
  · simp only [writeResponseHeaders, hbase, hm]
  · simp only [writeResponseHeaders, hbase, hm]
  · intro K
    simp only [writeResponseHeaders, hbase, hm]
    exact headerValues_projectLoop lib claims merged w.ResponseWriter.header K

/-- Witness of C13: the base mapping `X-Group ↦ group`, `X-None ↦ absent` and the
query `responses_X-Roles=roles&responses_X-Group=sub`. -/
theorem writeResponseHeaders_projects_merged_witness :
    ∃ merged,
      (writeResponseHeaders sampleLib projectionServer ⟨freshWriter, 0⟩ projectionRequest
        projectionClaims).1.ResponseHeaders = some merged ∧
      (writeResponseHeaders sampleLib projectionServer ⟨freshWriter, 0⟩ projectionRequest
        projectionClaims).2.2 = none ∧
      (∀ H, merged.lookup H =
        match overrideOf projectionRequest.Query H with
        | some claimName => some claimName
        | none => List.lookup H [("X-Group", "group"), ("X-None", "absent")]) ∧
      ((([("X-Group", "group"), ("X-None", "absent")] : List (String × String)).map
          Prod.fst).Nodup → (merged.map Prod.fst).Nodup) ∧
      (∀ K, headerValues (writeResponseHeaders sampleLib projectionServer ⟨freshWriter, 0⟩
          projectionRequest projectionClaims).2.1.ResponseWriter.header K =
        headerValues (statusWriter.mk freshWriter 0).ResponseWriter.header K ++
          merged.filterMap (fun e =>
            if sampleLib.CanonicalMIMEHeaderKey e.1 = K then
              projectedValue sampleLib projectionClaims e.2
            else none)) ∧
      (∀ claimName, (projectedValue sampleLib projectionClaims claimName).isSome =
        (projectionClaims.lookup claimName).isSome) :=
  writeResponseHeaders_projects_merged sampleLib projectionServer ⟨freshWriter, 0⟩
    projectionRequest projectionClaims [("X-Group", "group"), ("X-None", "absent")] rfl
    (by decide) (fun _ _ _ => ⟨[], rfl⟩)

theorem headerValues_prefix_projectLoop (lib : Lib) (claims : MapClaims)
    (m : List (String × String)) (h : StringListMap) (K : String) :
    headerValues h K <+: headerValues (projectLoop lib claims m h) K := by
  rw [headerValues_projectLoop]
  exact List.prefix_append _ _

theorem writeResponseHeaders_header (lib : Lib) (s : server) (w : statusWriter) (r : Request)
    (claims : MapClaims) :
    (writeResponseHeaders lib s w r claims).2.1.ResponseWriter.header = w.ResponseWriter.header ∨
    ∃ m, (writeResponseHeaders lib s w r claims).2.1.ResponseWriter.header =
      projectLoop lib claims m w.ResponseWriter.header := by
  unfold writeResponseHeaders
  dsimp only
  generalize extendResponseHeaders r.Query s.ResponseHeaders = res
  obtain ⟨m, f⟩ := res
  cases m with
  | none => cases f <;> exact Or.inl rfl
  | some m =>
    cases f with
    | none => exact Or.inr ⟨m, rfl⟩
    | some fault => exact Or.inl rfl

theorem writeResponseHeaders_projected (lib : Lib) (s : server) (w : statusWriter)
    (r : Request) (claims : MapClaims) (merged : List (String × String))
    (hm : (writeResponseHeaders lib s w r claims).1.ResponseHeaders = some merged)
    (hf : (writeResponseHeaders lib s w r claims).2.2 = none) :
    (writeResponseHeaders lib s w r claims).2.1.ResponseWriter.header =
      projectLoop lib claims merged w.ResponseWriter.header := by
  unfold writeResponseHeaders at hm hf ⊢
  dsimp only at hm hf ⊢
  generalize extendResponseHeaders r.Query s.ResponseHeaders = res at hm hf ⊢
  obtain ⟨m, f⟩ := res
  cases m with
  | none =>
    cases f with
    | none => simp at hm
    | some fault => simp at hf
  | some m =>
    cases f with
    | none =>
      simp only [Option.some.injEq] at hm
      subst hm
      rfl
    | some fault => simp at hf

theorem filterMap_name_ne (lib : Lib) (claims : MapClaims) (K : String)
    (l : List (String × String)) (h : ∀ e ∈ l, lib.CanonicalMIMEHeaderKey e.1 ≠ K) :
    l.filterMap (fun e =>
      if lib.CanonicalMIMEHeaderKey e.1 = K then projectedValue lib claims e.2 else none) = [] := by
  induction l with
  | nil => rfl
  | cons e rest ih =>
    have he : ¬ lib.CanonicalMIMEHeaderKey e.1 = K := h e (List.mem_cons_self _ _)
    simp only [List.filterMap_cons, he, if_false]
    exact ih (fun e2 he2 => h e2 (List.mem_cons_of_mem _ he2))

/-- C15: `writeResponseHeaders` only adds.  Under every header name the values
before the call are a prefix of the values after it, and a name that had values keeps
them in place.  When the call completes with the mapping `merged`, the values after
it under a name are the values before it followed by the projected values of the
entries of `merged` with that (canonical) name, in the order of the entries; so an
entry `(H, c)` whose claim projects to `v` puts `v` after every value `H` had before,
and when no other entry has the name of `H`, as the additional, last value.  A header
`X-User` that held `old` holds `old` and then `YWxpY2U=` after `sub = "alice"` is
projected to it.  Each single `Header.Add` puts the new value last under its name and
leaves every other name as it was. -/
theorem writeResponseHeaders_additive (lib : Lib) (s : server) (w : statusWriter)
    (r : Request) (claims : MapClaims) :
    (∀ K, headerValues w.ResponseWriter.header K <+:
      headerValues (writeResponseHeaders lib s w r claims).2.1.ResponseWriter.header K) ∧
    (∀ K vs, w.ResponseWriter.header.lookup K = some vs →
      ∃ more, (writeResponseHeaders lib s w r claims).2.1.ResponseWriter.header.lookup K =
        some (vs ++ more)) ∧
    (∀ merged, (writeResponseHeaders lib s w r claims).1.ResponseHeaders = some merged →
      (writeResponseHeaders lib s w r claims).2.2 = none →
      ∀ K, headerValues (writeResponseHeaders lib s w r claims).2.1.ResponseWriter.header K =
        headerValues w.ResponseWriter.header K ++ merged.filterMap (fun e =>
          if lib.CanonicalMIMEHeaderKey e.1 = K then projectedValue lib claims e.2 else none)) ∧
    (∀ pre post H c v,
      (writeResponseHeaders lib s w r claims).1.ResponseHeaders = some (pre ++ (H, c) :: post) →
      (writeResponseHeaders lib s w r claims).2.2 = none →
      projectedValue lib claims c = some v →
      ∃ earlier later,
        headerValues (writeResponseHeaders lib s w r claims).2.1.ResponseWriter.header
            (lib.CanonicalMIMEHeaderKey H) =
          headerValues w.ResponseWriter.header (lib.CanonicalMIMEHeaderKey H) ++
            earlier ++ v :: later) ∧
    (∀ pre post H c v,
      (writeResponseHeaders lib s w r claims).1.ResponseHeaders = some (pre ++ (H, c) :: post) →
      (writeResponseHeaders lib s w r claims).2.2 = none →
      projectedValue lib claims c = some v →
      (∀ e ∈ pre ++ post, lib.CanonicalMIMEHeaderKey e.1 ≠ lib.CanonicalMIMEHeaderKey H) →
      (writeResponseHeaders lib s w r claims).2.1.ResponseWriter.header.lookup
          (lib.CanonicalMIMEHeaderKey H) =
        some (headerValues w.ResponseWriter.header (lib.CanonicalMIMEHeaderKey H) ++ [v])) ∧
    projectSub sampleLib [("X-User", ["old"]), ("Vary", ["Origin"])] (.str "alice") =
      [("X-User", ["old", "YWxpY2U="]), ("Vary", ["Origin"])] ∧
    (∀ (h : StringListMap) (H v : String),
      (Header.Add lib h H v).lookup (lib.CanonicalMIMEHeaderKey H) =
        some (headerValues h (lib.CanonicalMIMEHeaderKey H) ++ [v])) ∧
    (∀ (h : StringListMap) (H v K : String), K ≠ lib.CanonicalMIMEHeaderKey H →
      (Header.Add lib h H v).lookup K = h.lookup K) := by
  have hkeep : ∀ (m : List (String × String)) (h : StringListMap) (K : String)
      (vs : List String), h.lookup K = some vs →
      ∃ more, (projectLoop lib claims m h).lookup K = some (vs ++ more) := by
    intro m
    induction m with
    | nil =>
      intro h K vs hl
      exact ⟨[], by simpa [projectLoop] using hl⟩
    | cons e rest ih =>
      intro h K vs hl
      obtain ⟨header, claimName⟩ := e
      cases hc : claims.lookup claimName with
      | none =>
        simp only [projectLoop, hc]
        exact ih h K vs hl
      | some claim =>
        cases ht : toClaim lib claim with
        | none =>
          simp only [projectLoop, hc, ht]
          exact ih h K vs hl
        | some bytes =>
          simp only [projectLoop, hc, ht, Header.Add]
          by_cases hK : K = lib.CanonicalMIMEHeaderKey header
          · have hstep : (appendValue h (lib.CanonicalMIMEHeaderKey header)
                (EncodeToString bytes)).lookup K = some (vs ++ [EncodeToString bytes]) := by
              rw [lookup_appendValue, if_pos hK]
              subst hK
              simp [headerValues, hl]
            obtain ⟨more, hmore⟩ := ih _ K _ hstep
            exact ⟨EncodeToString bytes :: more, by simpa using hmore⟩
          · have hstep : (appendValue h (lib.CanonicalMIMEHeaderKey header)
                (EncodeToString bytes)).lookup K = some vs := by
              rw [lookup_appendValue, if_neg hK]
              exact hl
            exact ih _ K _ hstep
  have hvalues : ∀ merged,
      (writeResponseHeaders lib s w r claims).1.ResponseHeaders = some merged →
      (writeResponseHeaders lib s w r claims).2.2 = none →
      ∀ K, headerValues (writeResponseHeaders lib s w r claims).2.1.ResponseWriter.header K =
        headerValues w.ResponseWriter.header K ++ merged.filterMap (fun e =>
          if lib.CanonicalMIMEHeaderKey e.1 = K then projectedValue lib claims e.2 else none) := by
    intro merged hm hf K
    rw [writeResponseHeaders_projected lib s w r claims merged hm hf]
    exact headerValues_projectLoop lib claims merged _ K
  refine ⟨?_, ?_, hvalues, ?_, ?_, by decide, ?_, ?_⟩
  · intro K
    rcases writeResponseHeaders_header lib s w r claims with h | ⟨m, h⟩
    · rw [h]
    · rw [h]
      exact headerValues_prefix_projectLoop lib claims m _ K
  · intro K vs hl
    rcases writeResponseHeaders_header lib s w r claims with h | ⟨m, h⟩
    · rw [h]
      exact ⟨[], by simpa using hl⟩
    · rw [h]
      exact hkeep m _ K vs hl
  · intro pre post H c v hm hf hv
    refine ⟨pre.filterMap (fun e =>
        if lib.CanonicalMIMEHeaderKey e.1 = lib.CanonicalMIMEHeaderKey H then
          projectedValue lib claims e.2 else none),
      post.filterMap (fun e =>
        if lib.CanonicalMIMEHeaderKey e.1 = lib.CanonicalMIMEHeaderKey H then
          projectedValue lib claims e.2 else none), ?_⟩
    rw [hvalues _ hm hf]
    simp [List.filterMap_append, List.filterMap_cons, hv]
  · intro pre post H c v hm hf hv hother
    have hpre := filterMap_name_ne lib claims (lib.CanonicalMIMEHeaderKey H) pre
      (fun e he => hother e (List.mem_append_left _ he))
    have hpost := filterMap_name_ne lib claims (lib.CanonicalMIMEHeaderKey H) post
      (fun e he => hother e (List.mem_append_right _ he))
    have hval := hvalues _ hm hf (lib.CanonicalMIMEHeaderKey H)
    rw [List.filterMap_append, List.filterMap_cons, hpre, hpost] at hval
    simp only [if_true, hv, List.nil_append] at hval
    unfold headerValues at hval
    cases hl : (writeResponseHeaders lib s w r claims).2.1.ResponseWriter.header.lookup
        (lib.CanonicalMIMEHeaderKey H) with
    | none =>
      rw [hl] at hval
      simp at hval
    | some vs =>
      rw [hl] at hval
      simp only [Option.getD_some] at hval
      rw [hval]
      rfl
  · intro h H v
    simp [Header.Add, lookup_appendValue]
  · intro h H v K hK
    simp [Header.Add, lookup_appendValue, hK]

/-! ## Token extraction -/

theorem cookieLoop_eq_find (x : List String) (cookies : List Cookie) :
    cookieLoop x cookies =
      match cookies.find? (fun c => decide (c.Name ∈ x)) with
      | some c => .ok c.Value
      | none => .error .ErrNoTokenInRequest := by
  induction cookies with
  | nil => rfl
  | cons c rest ih =>
    by_cases hc : contains x c.Name = true
    · have hm : c.Name ∈ x := (contains_iff _ _).1 hc
      simp [cookieLoop, hc, List.find?, hm]
    · have hm : ¬ c.Name ∈ x := fun h => hc ((contains_iff _ _).2 h)
      simp [cookieLoop, hc, List.find?, hm, ih]

theorem cookieLoop_error_iff (x : List String) (cookies : List Cookie) :
    cookieLoop x cookies = .error .ErrNoTokenInRequest ↔ ∀ c ∈ cookies, c.Name ∉ x := by
  induction cookies with
  | nil => simp [cookieLoop]
  | cons c rest ih =>
    by_cases hc : contains x c.Name = true
    · have hm : c.Name ∈ x := (contains_iff _ _).1 hc
      simp [cookieLoop, hc, hm]
    · have hm : ¬ c.Name ∈ x := fun h => hc ((contains_iff _ _).2 h)
      simp [cookieLoop, hc, hm, ih]

/-- C16: `CookieExtractor.ExtractToken` returns the value, as it is, of the first
cookie of the request, in the order of the request, whose name is in the configured
list, whatever cookies with other names come before it; it returns
`ErrNoTokenInRequest` exactly when no cookie of the request has a name in the list,
which is always so when the list is empty; and it returns no other error. -/
theorem CookieExtractor_first_match (x : List String) (req : Request) :
    (∀ (before after : List Cookie) (c : Cookie), req.Cookies = before ++ c :: after →
      (∀ b ∈ before, b.Name ∉ x) → c.Name ∈ x →
      CookieExtractor.ExtractToken x req = .ok c.Value) ∧
    (CookieExtractor.ExtractToken x req = .error .ErrNoTokenInRequest ↔
      ∀ c ∈ req.Cookies, c.Name ∉ x) ∧
    (∀ e, CookieExtractor.ExtractToken x req = .error e → e = .ErrNoTokenInRequest) ∧
    CookieExtractor.ExtractToken [] req = .error .ErrNoTokenInRequest := by
  refine ⟨?_, cookieLoop_error_iff x req.Cookies, ?_, ?_⟩
  · intro before after c hsplit hbefore hc
    unfold CookieExtractor.ExtractToken
    rw [hsplit]
    clear hsplit
    induction before with
    | nil =>
      have : contains x c.Name = true := (contains_iff _ _).2 hc
      simp [cookieLoop, this]
    | cons b rest ih =>
      have hb : ¬ contains x b.Name = true := fun h =>
        hbefore b (List.mem_cons_self _ _) ((contains_iff _ _).1 h)
      simp only [List.cons_append, cookieLoop, hb]
      exact ih (fun b2 hb2 => hbefore b2 (List.mem_cons_of_mem _ hb2))
  · intro e he
    unfold CookieExtractor.ExtractToken at he
    rw [cookieLoop_eq_find] at he
    cases hf : req.Cookies.find? (fun c => decide (c.Name ∈ x)) with
    | none =>
      rw [hf] at he
      injection he with he
      exact he.symm
    | some c =>
      rw [hf] at he
      cases he
  · exact (cookieLoop_error_iff [] req.Cookies).2 (fun c _ => by simp)

theorem extractor_without_cookie (lib : Lib) (s : server) (req : Request)
    (hcookie : ∀ c ∈ req.Cookies, c.Name ∉ s.CookieNames) :
    extractor lib s req = lib.AuthorizationHeaderExtractor req.Header := by
  have hc : CookieExtractor.ExtractToken s.CookieNames req = .error .ErrNoTokenInRequest :=
    (cookieLoop_error_iff s.CookieNames req.Cookies).2 hcookie
  simp only [extractor, MultiExtractor.ExtractToken, hc, if_true]
  cases hl : lib.AuthorizationHeaderExtractor req.Header with
  | ok tok => rfl
  | error e =>
    by_cases he : e = .ErrNoTokenInRequest
    · simp [he]
    · simp [he]

theorem stripBearerPrefix_of_scheme (scheme token : String)
    (hs : scheme.data.map Char.toUpper = "BEARER ".data) :
    stripBearerPrefixFromTokenString (scheme ++ token) = token ∧ scheme ++ token ≠ "" := by
  have hlen : scheme.data.length = 7 := by
    have := congrArg List.length hs
    simpa using this
  have htake : (scheme ++ token).data.take 7 = scheme.data := by
    rw [String.data_append, ← hlen, List.take_left']
    rfl
  have hdrop : (scheme ++ token).data.drop 7 = token.data := by
    rw [String.data_append, ← hlen, List.drop_left']
    rfl
  constructor
  · unfold stripBearerPrefixFromTokenString
    rw [htake, if_pos hs, hdrop]
  · intro h
    have := congrArg (fun t => t.data.length) h
    simp [String.data_append, hlen] at this

/-- C17, counterexample: with no cookie on the request, the header values
`bearer tok` (scheme in lower case) and `tok` (no scheme at all), neither of which
has the form `Bearer <token>`, both yield the token `tok` instead of the signal that
there is no token. -/
theorem extractor_accepts_other_header_values :
    (∀ c ∈ (bearerRequest "bearer tok").Cookies, c.Name ∉ sampleServer.CookieNames) ∧
    (∀ token : String, "bearer tok" ≠ "Bearer " ++ token) ∧
    (∀ token : String, "tok" ≠ "Bearer " ++ token) ∧
    extractor jwtLib sampleServer (bearerRequest "bearer tok") = .ok "tok" ∧
    extractor jwtLib sampleServer (bearerRequest "tok") = .ok "tok" := by
  refine ⟨by simp [bearerRequest], ?_, ?_, by decide, by decide⟩
  · intro token h
    have h2 := congrArg (fun t => t.data.head?) h
    simp only [String.data_append] at h2
    simp at h2
  · intro token h
    have h2 := congrArg (fun t => t.data.head?) h
    simp only [String.data_append] at h2
    simp at h2

/-- C17, as amended: when no cookie name matches the configured list and the
Authorization extractor is the one of jwt-go, the composed extractor returns
`<token>` when the header value is a seven-character scheme that reads `bearer `
in any letter case, `Bearer ` among them, followed by `<token>`; it returns the
whole header value when that value is not empty and does not start so; and it
reports that there is no token when the header is absent or empty. -/
theorem extractor_authorization_header (lib : Lib) (s : server) (req : Request)
    (hlib : lib.AuthorizationHeaderExtractor = AuthorizationHeaderExtractor)
    (hcookie : ∀ c ∈ req.Cookies, c.Name ∉ s.CookieNames) :
    (∀ scheme token, scheme.data.map Char.toUpper = "BEARER ".data →
      Header.Get req.Header "Authorization" = scheme ++ token →
      extractor lib s req = .ok token) ∧
    (∀ token, Header.Get req.Header "Authorization" = "Bearer " ++ token →
      extractor lib s req = .ok token) ∧
    (Header.Get req.Header "Authorization" ≠ "" →
      ((Header.Get req.Header "Authorization").data.take 7).map Char.toUpper ≠ "BEARER ".data →
      extractor lib s req = .ok (Header.Get req.Header "Authorization")) ∧
    (Header.Get req.Header "Authorization" = "" →
      extractor lib s req = .error .ErrNoTokenInRequest) := by
  have hx : extractor lib s req = AuthorizationHeaderExtractor req.Header := by
    rw [extractor_without_cookie lib s req hcookie, hlib]
  have hscheme : ∀ scheme token, scheme.data.map Char.toUpper = "BEARER ".data →
      Header.Get req.Header "Authorization" = scheme ++ token →
      extractor lib s req = .ok token := by
    intro scheme token hs hget
    obtain ⟨hstrip, hne⟩ := stripBearerPrefix_of_scheme scheme token hs
    rw [hx]
    simp only [AuthorizationHeaderExtractor, hget, if_neg hne, hstrip]
  refine ⟨hscheme, ?_, ?_, ?_⟩
  · intro token hget
    exact hscheme "Bearer " token (by decide) hget
  · intro hne hnot
    rw [hx]
    simp only [AuthorizationHeaderExtractor, if_neg hne, stripBearerPrefixFromTokenString,
      if_neg hnot]
  · intro hempty
    rw [hx]
    simp only [AuthorizationHeaderExtractor, hempty, if_true]

/-- Witness of C17 as amended: the header value `BeArEr tok` on a request without
cookies. -/
theorem extractor_authorization_header_witness :
    extractor jwtLib sampleServer (bearerRequest "BeArEr tok") = .ok "tok" :=
  (extractor_authorization_header jwtLib sampleServer (bearerRequest "BeArEr tok") rfl
    (by simp [bearerRequest])).1 "BeArEr " "tok" (by decide) (by decide)

/-! ## Initialization -/

/-- C18: when the configuration file reads and decodes to `cfg`, `newServer` returns
a server only if `claimsSource` is `static` or `queryString` and, for `static`, the
claims are not empty; the server then carries that mode and those claims, and its
public key is the key that parsing the key material of the first validation key
returned; and for a `claimsSource` outside the two, or `static` with empty claims,
no server is returned. -/
theorem newServer_ok_only_if (sys : Sys) (configFilePath bytes : String) (cfg : config)
    (hread : sys.ReadFile configFilePath = some bytes)
    (hyaml : sys.Unmarshal bytes = some cfg) :
    (∀ srv, newServer sys configFilePath = .ok (.ok srv) →
      (cfg.ClaimsSource = "static" ∨ cfg.ClaimsSource = "queryString") ∧
      (cfg.ClaimsSource = "static" → cfg.StaticClaims ≠ []) ∧
      srv.ClaimsSource = cfg.ClaimsSource ∧ srv.StaticClaims = cfg.StaticClaims ∧
      ∃ key keyMaterial, cfg.ValidationKeys.head? = some key ∧
        keyMaterialOf sys key = .ok keyMaterial ∧
        sys.ParseECPublicKeyFromPEM keyMaterial = some srv.PublicKey) ∧
    (((cfg.ClaimsSource ≠ "static" ∧ cfg.ClaimsSource ≠ "queryString") ∨
        (cfg.ClaimsSource = "static" ∧ cfg.StaticClaims = [])) →
      ∀ srv, newServer sys configFilePath ≠ .ok (.ok srv)) := by
  have main : ∀ srv, newServer sys configFilePath = .ok (.ok srv) →
      (cfg.ClaimsSource = "static" ∨ cfg.ClaimsSource = "queryString") ∧
      (cfg.ClaimsSource = "static" → cfg.StaticClaims ≠ []) ∧
      srv.ClaimsSource = cfg.ClaimsSource ∧ srv.StaticClaims = cfg.StaticClaims ∧
      ∃ key keyMaterial, cfg.ValidationKeys.head? = some key ∧
        keyMaterialOf sys key = .ok keyMaterial ∧
        sys.ParseECPublicKeyFromPEM keyMaterial = some srv.PublicKey := by
    intro srv h
    simp only [newServer, hread, hyaml] at h
    cases hkeys : cfg.ValidationKeys with
    | nil =>
      rw [hkeys] at h
      cases h
    | cons key more =>
      rw [hkeys] at h
      dsimp only at h
      cases hkm : keyMaterialOf sys key with
      | error e =>
        rw [hkm] at h
        cases h
      | ok keyMaterial =>
        rw [hkm] at h
        dsimp only at h
        cases hpem : sys.ParseECPublicKeyFromPEM keyMaterial with
        | none =>
          rw [hpem] at h
          cases h
        | some pubkey =>
          rw [hpem] at h
          dsimp only at h
          by_cases hsrc : contains ["static", "queryString"] cfg.ClaimsSource = false
          · rw [if_pos hsrc] at h
            cases h
          · rw [if_neg hsrc] at h
            by_cases hempty : cfg.ClaimsSource = claimsSourceStatic ∧ cfg.StaticClaims.length = 0
            · rw [if_pos hempty] at h
              cases h
            · rw [if_neg hempty] at h
              injection h with h
              injection h with h
              subst h
              have hmem : cfg.ClaimsSource ∈ ["static", "queryString"] := by
                rw [← contains_iff]
                simpa using hsrc
              refine ⟨by simpa using hmem, ?_, rfl, rfl, key, keyMaterial, rfl, hkm, hpem⟩
              intro hstatic hnil
              exact hempty ⟨hstatic, by simp [hnil]⟩
  refine ⟨main, ?_⟩
  intro hbad srv h
  obtain ⟨hmode, hclaims, -⟩ := main srv h
  rcases hbad with ⟨h1, h2⟩ | ⟨h1, h2⟩
  · rcases hmode with h | h
    · exact h1 h
    · exact h2 h
  · exact hclaims h1 h2

/-- Witness of C18: the sample configuration, and the same with empty claims. -/
theorem newServer_ok_only_if_witness :
    newServer (sampleSys sampleConfig) "config.yaml" = .ok (.ok sampleServer) ∧
    ((sampleConfig.ClaimsSource = "static" ∨ sampleConfig.ClaimsSource = "queryString") ∧
      (sampleConfig.ClaimsSource = "static" → sampleConfig.StaticClaims ≠ []) ∧
      sampleServer.ClaimsSource = sampleConfig.ClaimsSource ∧
      sampleServer.StaticClaims = sampleConfig.StaticClaims ∧
      ∃ key keyMaterial, sampleConfig.ValidationKeys.head? = some key ∧
        keyMaterialOf (sampleSys sampleConfig) key = .ok keyMaterial ∧
        (sampleSys sampleConfig).ParseECPublicKeyFromPEM keyMaterial =
          some sampleServer.PublicKey) ∧
    ∀ srv, newServer (sampleSys { sampleConfig with StaticClaims := [] }) "config.yaml" ≠
      .ok (.ok srv) :=
  ⟨by decide,
    (newServer_ok_only_if (sampleSys sampleConfig) "config.yaml" "yaml" sampleConfig rfl rfl).1
      sampleServer (by decide),
    (newServer_ok_only_if (sampleSys { sampleConfig with StaticClaims := [] }) "config.yaml"
      "yaml" { sampleConfig with StaticClaims := [] } rfl rfl).2 (Or.inr ⟨rfl, rfl⟩)⟩

/-! ## The request counters -/

theorem validate_counts_once (lib : Lib) (s : server) (c : Counters) (rw : ResponseWriter)
    (r : Request)
    (hproj : ∀ claims, validateDeviceToken lib s r = .ok (claims, true) →
      (writeResponseHeaders lib s ⟨rw, 0⟩ r claims).2.2 = none) :
    ((validate lib s c rw r).w.status = 200 ∧ (validate lib s c rw r).requestsTotal = c.Inc "200") ∨
    ((validate lib s c rw r).w.status = 401 ∧ (validate lib s c rw r).requestsTotal = c.Inc "401") ∨
    ((validate lib s c rw r).w.status = 405 ∧ (validate lib s c rw r).requestsTotal = c.Inc "405") ∨
    ((validate lib s c rw r).w.status = 500 ∧ (validate lib s c rw r).requestsTotal = c.Inc "500") := by
  by_cases hmeth : r.Method = "GET" ∨ r.Method = "HEAD"
  · cases hd : validateDeviceToken lib s r with
    | error e =>
      rw [validate_panicked lib s c rw r hmeth e hd]
      exact Or.inr (Or.inr (Or.inr ⟨rfl, rfl⟩))
    | ok res =>
      obtain ⟨claims, ok⟩ := res
      cases ok with
      | false =>
        rw [validate_denied lib s c rw r hmeth claims hd]
        exact Or.inr (Or.inl ⟨rfl, rfl⟩)
      | true =>
        rw [validate_accepted lib s c rw r hmeth claims hd]
        have hnone := hproj claims hd
        generalize writeResponseHeaders lib s ⟨rw, 0⟩ r claims = res at hnone
        obtain ⟨s2, w2, f⟩ := res
        simp only at hnone
        subst hnone
        exact Or.inl ⟨rfl, rfl⟩
  · have hcond : r.Method ≠ "GET" ∧ r.Method ≠ "HEAD" := by
      constructor
      · intro h
        exact hmeth (Or.inl h)
      · intro h
        exact hmeth (Or.inr h)
    have hv : validate lib s c rw r =
        { s := s, requestsTotal := c.Inc "405",
          w := statusWriter.WriteHeader { ResponseWriter := rw, status := 0 } 405 } := by
      simp only [validate, if_pos hcond]
    rw [hv]
    exact Or.inr (Or.inr (Or.inl ⟨rfl, rfl⟩))

/-- C19 (the code departs from it): the request of C9, answered 500 because line
376 panics, increments two counters: line 213 has already counted it as a 200 when
the deferred function counts it as a 500. -/
theorem validate_counts_200_and_500 :
    (validate sampleLib sampleServer ⟨0, 0, 0, 0⟩ freshWriter
        (sampleRequest "GET" "es" [("responses_X-User", ["group"])])).w.status = 500 ∧
    (validate sampleLib sampleServer ⟨0, 0, 0, 0⟩ freshWriter
        (sampleRequest "GET" "es" [("responses_X-User", ["group"])])).requestsTotal =
      { c200 := 1, c401 := 0, c405 := 0, c500 := 1 } ∧
    (validate sampleLib sampleServer ⟨0, 0, 0, 0⟩ freshWriter
        (sampleRequest "GET" "es" [("responses_X-User", ["group"])])).requestsTotal ≠
      Counters.Inc ⟨0, 0, 0, 0⟩ "500" := by
  decide

/-! ## The visiting order of map entries -/

theorem checkClaimSet_perm (claims : MapClaims) (h : SequencesHoldStrings claims)
    (cs1 cs2 : StringListMap) (hp : cs1.Perm cs2) :
    checkClaimSet claims cs1 = checkClaimSet claims cs2 := by
  obtain ⟨b1, hb1, hiff1⟩ := checkClaimSet_spec claims h cs1
  obtain ⟨b2, hb2, hiff2⟩ := checkClaimSet_spec claims h cs2
  have hb : b1 = b2 := by
    have hiff : b1 = true ↔ b2 = true := by
      rw [hiff1, hiff2]
      constructor
      · intro hall e he
        exact hall e (hp.mem_iff.2 he)
      · intro hall e he
        exact hall e (hp.mem_iff.1 he)
    cases b1 <;> cases b2 <;> simp_all
  rw [hb1, hb2, hb]

theorem staticLoop_perm (claims : MapClaims) (h : SequencesHoldStrings claims)
    (sets1 sets2 : List StringListMap) (hp : List.Forall₂ List.Perm sets1 sets2)
    (valid : Bool) : staticLoop claims sets1 valid = staticLoop claims sets2 valid := by
  induction hp generalizing valid with
  | nil => rfl
  | cons hhead _ ih =>
    simp only [staticLoop, checkClaimSet_perm claims h _ _ hhead, ih]

theorem staticClaimValidator_perm (s1 s2 : server) (claims : MapClaims)
    (h : SequencesHoldStrings claims)
    (hp : List.Forall₂ List.Perm s1.StaticClaims s2.StaticClaims) :
    staticClaimValidator s1 claims = staticClaimValidator s2 claims :=
  staticLoop_perm claims h _ _ hp false

theorem queryLoop_perm (claims : MapClaims) (h : SequencesHoldStrings claims)
    (q1 q2 : StringListMap) (hp : q1.Perm q2) :
    queryLoop claims q1 = queryLoop claims q2 := by
  obtain ⟨b1, hb1, hiff1⟩ := queryLoop_spec claims h q1
  obtain ⟨b2, hb2, hiff2⟩ := queryLoop_spec claims h q2
  have hb : b1 = b2 := by
    have hiff : b1 = true ↔ b2 = true := by
      rw [hiff1, hiff2]
      constructor
      · intro hall name vs he
        exact hall name vs (hp.mem_iff.2 he)
      · intro hall name vs he
        exact hall name vs (hp.mem_iff.1 he)
    cases b1 <;> cases b2 <;> simp_all
  rw [hb1, hb2, hb]

theorem queryStringClaimValidator_perm (s : server) (claims : MapClaims)
    (h : SequencesHoldStrings claims) (r1 r2 : Request) (hp : r1.Query.Perm r2.Query) :
    queryStringClaimValidator s claims r1 = queryStringClaimValidator s claims r2 := by
  have hf : (r1.Query.filter (fun kv => hasPrefix kv.1 "claims_")).Perm
      (r2.Query.filter (fun kv => hasPrefix kv.1 "claims_")) := hp.filter _
  rw [queryStringClaimValidator_filter, queryStringClaimValidator_filter, hf.length_eq,
    queryLoop_perm claims h _ _ hf]

/-- C20 (the code departs from it): on the claims `group = "admin"`,
`roles = [7, "dev"]` the outcome depends on the order in which the entries are
visited.  The claim set `{group ∈ {root}, roles ∈ {dev}}` followed by the set
`{group ∈ {admin}}` allows the token when `group` is visited first, and panics when
`roles` is visited first; the query `claims_group=root&claims_roles=dev` is denied
in the first order and panics in the second. -/
theorem policy_outcome_depends_on_visiting_order :
    List.Perm [("group", ["root"]), ("roles", ["dev"])]
      [("roles", ["dev"]), ("group", ["root"])] ∧
    staticClaimValidator
        { sampleServer with
          StaticClaims := [[("group", ["root"]), ("roles", ["dev"])], [("group", ["admin"])]] }
        [("group", .str "admin"), ("roles", .arr [.num ⟨7⟩, .str "dev"])] = .ok true ∧
    staticClaimValidator
        { sampleServer with
          StaticClaims := [[("roles", ["dev"]), ("group", ["root"])], [("group", ["admin"])]] }
        [("group", .str "admin"), ("roles", .arr [.num ⟨7⟩, .str "dev"])] =
      .error .typeAssertion ∧
    List.Perm [("claims_group", ["root"]), ("claims_roles", ["dev"])]
      [("claims_roles", ["dev"]), ("claims_group", ["root"])] ∧
    queryStringClaimValidator sampleServer
        [("group", .str "admin"), ("roles", .arr [.num ⟨7⟩, .str "dev"])]
        (sampleRequest "GET" "es" [("claims_group", ["root"]), ("claims_roles", ["dev"])]) =
      .ok false ∧
    queryStringClaimValidator sampleServer
        [("group", .str "admin"), ("roles", .arr [.num ⟨7⟩, .str "dev"])]
        (sampleRequest "GET" "es" [("claims_roles", ["dev"]), ("claims_group", ["root"])]) =
      .error .typeAssertion :=
  ⟨List.Perm.swap _ _ _, by decide, by decide, List.Perm.swap _ _ _, by decide, by decide⟩

/-! ## The base64 encoder -/

set_option maxRecDepth 100000 in
theorem decodeStdChar_encodeStdChar :
    ∀ n, n < 64 → decodeStdChar (encodeStdChar n) = some n := by
  decide

set_option maxRecDepth 100000 in
theorem encodeStdChar_ne_pad : ∀ n, n < 64 → encodeStdChar n ≠ '=' := by
  decide

theorem decodeChars_encodeToChars :
    ∀ bs : List Nat, (∀ b ∈ bs, b < 256) → decodeChars (encodeToChars bs) = some bs
  | [], _ => rfl
  | [a], h => by
    have ha : a < 256 := h a (by simp)
    have h1 := decodeStdChar_encodeStdChar (a / 4) (by omega)
    have h2 := decodeStdChar_encodeStdChar (a % 4 * 16) (by omega)
    simp only [encodeToChars, decodeChars, h1, h2, and_self, if_true]
    congr 2
    omega
  | [a, b], h => by
    have ha : a < 256 := h a (by simp)
    have hb : b < 256 := h b (by simp)
    have h1 := decodeStdChar_encodeStdChar (a / 4) (by omega)
    have h2 := decodeStdChar_encodeStdChar (a % 4 * 16 + b / 16) (by omega)
    have h3 := decodeStdChar_encodeStdChar (b % 16 * 4) (by omega)
    have hp := encodeStdChar_ne_pad (b % 16 * 4) (by omega)
    simp only [encodeToChars, decodeChars, h1, h2, h3, hp, false_and, if_false, and_self,
      if_true]
    congr 2
    · omega
    · congr 1
      omega
  | a :: b :: c :: rest, h => by
    have ha : a < 256 := h a (by simp)
    have hb : b < 256 := h b (by simp)
    have hc : c < 256 := h c (by simp)
    have hrest : ∀ x ∈ rest, x < 256 := fun x hx => h x (by simp [hx])
    have h1 := decodeStdChar_encodeStdChar (a / 4) (by omega)
    have h2 := decodeStdChar_encodeStdChar (a % 4 * 16 + b / 16) (by omega)
    have h3 := decodeStdChar_encodeStdChar (b % 16 * 4 + c / 64) (by omega)
    have h4 := decodeStdChar_encodeStdChar (c % 64) (by omega)
    have hp3 := encodeStdChar_ne_pad (b % 16 * 4 + c / 64) (by omega)
    have hp4 := encodeStdChar_ne_pad (c % 64) (by omega)
    have ih := decodeChars_encodeToChars rest hrest
    simp only [encodeToChars, decodeChars, h1, h2, h3, h4, hp3, hp4, false_and, if_false, ih]
    congr 2
    · omega
    · congr 1
      · omega
      · congr 1
        omega

theorem length_encodeToChars :
    ∀ bs : List Nat, (encodeToChars bs).length = 4 * ((bs.length + 2) / 3)
  | [] => rfl
  | [_] => by simp [encodeToChars]
  | [_, _] => by simp [encodeToChars]
  | _ :: _ :: _ :: rest => by
    have ih := length_encodeToChars rest
    simp only [encodeToChars, List.length_cons, ih]
    omega

/-! ## The UTF-8 bytes of a string -/

theorem toNat_toUInt8 (v : UInt32) : v.toUInt8.toNat = v.toNat % 256 := by
  simp [UInt32.toUInt8, Nat.toUInt8, UInt8.ofNat, UInt8.toNat, UInt32.toNat]

theorem toNat_shiftRight (v : UInt32) (k : Nat) (hk : k < 32) :
    (v >>> (UInt32.ofNat k)).toNat = v.toNat / 2 ^ k := by
  show (UInt32.shiftRight v (UInt32.ofNat k)).toNat = _
  have h32 : (UInt32.mod (UInt32.ofNat k) 32).toBitVec.toNat = k := by
    show ((UInt32.ofNat k) % 32).toNat = k
    rw [UInt32.toNat_mod]
    have : (UInt32.ofNat k).toNat = k := UInt32.toNat_ofNat_of_lt (by simp [UInt32.size]; omega)
    rw [this]
    show k % 32 = k
    omega
  simp only [UInt32.shiftRight, UInt32.toNat]
  rw [BitVec.ushiftRight_eq', BitVec.toNat_ushiftRight, h32, Nat.shiftRight_eq_div_pow]

set_option maxRecDepth 100000 in
theorem utf8_mask_cont : ∀ k, k < 256 → ((UInt8.ofNat k) &&& 0x3f ||| 0x80).toNat = 0x80 + k % 64 := by
  decide
set_option maxRecDepth 100000 in
theorem utf8_mask_two : ∀ k, k < 256 → ((UInt8.ofNat k) &&& 0x1f ||| 0xc0).toNat = 0xc0 + k % 32 := by
  decide
set_option maxRecDepth 100000 in
theorem utf8_mask_three : ∀ k, k < 256 → ((UInt8.ofNat k) &&& 0x0f ||| 0xe0).toNat = 0xe0 + k % 16 := by
  decide
set_option maxRecDepth 100000 in
theorem utf8_mask_four : ∀ k, k < 256 → ((UInt8.ofNat k) &&& 0x07 ||| 0xf0).toNat = 0xf0 + k % 8 := by
  decide

theorem toUInt8_eq (v : UInt32) : v.toUInt8 = UInt8.ofNat (v.toNat % 256) := by
  apply UInt8.toNat.inj
  rw [toNat_toUInt8, UInt8.toNat_ofNat_of_lt (by simp [UInt8.size]; omega)]


theorem utf8EncodeChar_eq (c : Char) :
    utf8EncodeChar c = (String.utf8EncodeChar c).map UInt8.toNat := by
  have hvalid : c.val.toNat < 0x110000 := by
    rcases c.valid with h | ⟨_, h⟩
    · have : c.val.toNat < 0xd800 := h
      omega
    · exact h
  have h6 := toNat_shiftRight c.val 6 (by omega)
  have h12 := toNat_shiftRight c.val 12 (by omega)
  have h18 := toNat_shiftRight c.val 18 (by omega)
  have e6 : (UInt32.ofNat 6) = (6 : UInt32) := rfl
  have e12 : (UInt32.ofNat 12) = (12 : UInt32) := rfl
  have e18 : (UInt32.ofNat 18) = (18 : UInt32) := rfl
  rw [e6] at h6
  rw [e12] at h12
  rw [e18] at h18
  unfold utf8EncodeChar String.utf8EncodeChar
  dsimp only
  have hle1 : c.val ≤ 0x7f ↔ c.val.toNat < 0x80 := by
    rw [UInt32.le_def]
    show c.val.toNat ≤ 127 ↔ _
    omega
  have hle2 : c.val ≤ 0x7ff ↔ c.val.toNat < 0x800 := by
    rw [UInt32.le_def]
    show c.val.toNat ≤ 2047 ↔ _
    omega
  have hle3 : c.val ≤ 0xffff ↔ c.val.toNat < 0x10000 := by
    rw [UInt32.le_def]
    show c.val.toNat ≤ 65535 ↔ _
    omega
  by_cases h1 : c.val.toNat < 0x80
  · rw [if_pos h1, if_pos (hle1.2 h1)]
    simp only [List.map_cons, List.map_nil, toNat_toUInt8]
    congr 1
    omega
  · rw [if_neg h1, if_neg (fun h => h1 (hle1.1 h))]
    by_cases h2 : c.val.toNat < 0x800
    · rw [if_pos h2, if_pos (hle2.2 h2)]
      simp only [List.map_cons, List.map_nil, toUInt8_eq, h6]
      rw [utf8_mask_two _ (Nat.mod_lt _ (by omega)), utf8_mask_cont _ (Nat.mod_lt _ (by omega))]
      congr 1
      · omega
      · congr 1
        omega
    · rw [if_neg h2, if_neg (fun h => h2 (hle2.1 h))]
      by_cases h3 : c.val.toNat < 0x10000
      · rw [if_pos h3, if_pos (hle3.2 h3)]
        simp only [List.map_cons, List.map_nil, toUInt8_eq, h6, h12]
        rw [utf8_mask_three _ (Nat.mod_lt _ (by omega)), utf8_mask_cont _ (Nat.mod_lt _ (by omega)),
          utf8_mask_cont _ (Nat.mod_lt _ (by omega))]
        congr 1
        · omega
        · congr 1
          · omega
          · congr 1
            omega
      · rw [if_neg h3, if_neg (fun h => h3 (hle3.1 h))]
        simp only [List.map_cons, List.map_nil, toUInt8_eq, h6, h12, h18]
        rw [utf8_mask_four _ (Nat.mod_lt _ (by omega)), utf8_mask_cont _ (Nat.mod_lt _ (by omega)),
          utf8_mask_cont _ (Nat.mod_lt _ (by omega)), utf8_mask_cont _ (Nat.mod_lt _ (by omega))]
        congr 1
        · omega
        · congr 1
          · omega
          · congr 1
            · omega
            · congr 1
              omega

theorem stringBytes_eq_toUTF8 (s : String) :
    stringBytes s = s.toUTF8.data.toList.map UInt8.toNat := by
  unfold stringBytes String.toUTF8
  simp only [List.map_flatMap]
  congr 1
  funext c
  exact utf8EncodeChar_eq c

/-! ## The encoder against the standards -/

set_option maxRecDepth 100000 in
theorem stdAlphabetChar_eq : ∀ v, v < 64 → stdAlphabetChar v = encodeStdChar v := by
  decide

theorem padToFour_cons_four (c1 c2 c3 c4 : Char) (cs : List Char) :
    padToFour (c1 :: c2 :: c3 :: c4 :: cs) = c1 :: c2 :: c3 :: c4 :: padToFour cs := by
  unfold padToFour
  have h : (c1 :: c2 :: c3 :: c4 :: cs).length % 4 = cs.length % 4 := by
    simp only [List.length_cons]
    omega
  rw [h]
  rfl

theorem encodeToChars_eq_spec :
    ∀ bs : List Nat, (∀ b ∈ bs, b < 256) →
      encodeToChars bs = padToFour ((sextets (bs.flatMap byteBits)).map stdAlphabetChar)
  | [], _ => by decide
  | [a], h => by
    have ha : a < 256 := h a (by simp)
    have e1 : sextetValue (a / 128 % 2) (a / 64 % 2) (a / 32 % 2) (a / 16 % 2) (a / 8 % 2)
        (a / 4 % 2) = a / 4 := by
      unfold sextetValue
      omega
    have e2 : sextetValue (a / 2 % 2) (a % 2) 0 0 0 0 = a % 4 * 16 := by
      unfold sextetValue
      omega
    simp only [List.flatMap_cons, List.flatMap_nil, List.append_nil, byteBits, sextets,
      List.getD_cons_zero, List.getD_cons_succ, List.getD_nil, e1, e2, List.map_cons,
      List.map_nil, encodeToChars]
    rw [stdAlphabetChar_eq _ (by omega), stdAlphabetChar_eq _ (by omega)]
    rfl
  | [a, b], h => by
    have ha : a < 256 := h a (by simp)
    have hb : b < 256 := h b (by simp)
    have e1 : sextetValue (a / 128 % 2) (a / 64 % 2) (a / 32 % 2) (a / 16 % 2) (a / 8 % 2)
        (a / 4 % 2) = a / 4 := by
      unfold sextetValue
      omega
    have e2 : sextetValue (a / 2 % 2) (a % 2) (b / 128 % 2) (b / 64 % 2) (b / 32 % 2)
        (b / 16 % 2) = a % 4 * 16 + b / 16 := by
      unfold sextetValue
      omega
    have e3 : sextetValue (b / 8 % 2) (b / 4 % 2) (b / 2 % 2) (b % 2) 0 0 = b % 16 * 4 := by
      unfold sextetValue
      omega
    simp only [List.flatMap_cons, List.flatMap_nil, List.append_nil, byteBits, sextets,
      List.cons_append, List.nil_append,
      List.getD_cons_zero, List.getD_cons_succ, List.getD_nil, e1, e2, e3, List.map_cons,
      List.map_nil, encodeToChars]
    rw [stdAlphabetChar_eq _ (by omega), stdAlphabetChar_eq _ (by omega),
      stdAlphabetChar_eq _ (by omega)]
    rfl
  | a :: b :: c :: rest, h => by
    have ha : a < 256 := h a (by simp)
    have hb : b < 256 := h b (by simp)
    have hc : c < 256 := h c (by simp)
    have hrest : ∀ x ∈ rest, x < 256 := fun x hx => h x (by simp [hx])
    have ih := encodeToChars_eq_spec rest hrest
    have e1 : sextetValue (a / 128 % 2) (a / 64 % 2) (a / 32 % 2) (a / 16 % 2) (a / 8 % 2)
        (a / 4 % 2) = a / 4 := by
      unfold sextetValue
      omega
    have e2 : sextetValue (a / 2 % 2) (a % 2) (b / 128 % 2) (b / 64 % 2) (b / 32 % 2)
        (b / 16 % 2) = a % 4 * 16 + b / 16 := by
      unfold sextetValue
      omega
    have e3 : sextetValue (b / 8 % 2) (b / 4 % 2) (b / 2 % 2) (b % 2) (c / 128 % 2)
        (c / 64 % 2) = b % 16 * 4 + c / 64 := by
      unfold sextetValue
      omega
    have e4 : sextetValue (c / 32 % 2) (c / 16 % 2) (c / 8 % 2) (c / 4 % 2) (c / 2 % 2)
        (c % 2) = c % 64 := by
      unfold sextetValue
      omega
    simp only [List.flatMap_cons, byteBits, sextets, List.cons_append, List.nil_append,
      e1, e2, e3, e4, List.map_cons, encodeToChars, padToFour_cons_four, ih]
    rw [stdAlphabetChar_eq _ (by omega), stdAlphabetChar_eq _ (by omega),
      stdAlphabetChar_eq _ (by omega), stdAlphabetChar_eq _ (by omega)]
    rfl

theorem specUTF8_lt (s : String) : ∀ b ∈ specUTF8 s, b < 256 := by
  intro b hb
  unfold specUTF8 at hb
  rw [List.mem_map] at hb
  obtain ⟨u, -, rfl⟩ := hb
  exact u.toNat_lt

theorem EncodeToString_eq_spec (bytes : List Nat) (h : ∀ b ∈ bytes, b < 256) :
    EncodeToString bytes = specStdBase64 bytes := by
  unfold EncodeToString specStdBase64
  rw [encodeToChars_eq_spec bytes h]

theorem stringBytes_eq_specUTF8 (str : String) : stringBytes str = specUTF8 str :=
  stringBytes_eq_toUTF8 str

/-- C14: when the loop of `writeResponseHeaders` reaches an entry `(H, c)` whose
claim is a string, the value it adds under `H` is the padded standard base64 of
RFC 4648 of the UTF-8 bytes of the string itself, whatever `json.Marshal` would make
of the string; for a claim that is not a string it is that base64 of the bytes that
`json.Marshal` returns.  So `sub = "alice"` mapped to `X-User` gives `YWxpY2U=`, also
with a `json.Marshal` that would quote it; a two-byte character gives `w6k=`; the
characters 62 and 63 of the alphabet are `+` and `/`; one and two bytes are padded
with `==` and `=`; and the sequence `["dev"]` gives `WyJkZXYiXQ==`. -/
theorem projectLoop_encodes_std_base64 (lib : Lib) (claims : MapClaims)
    (H claimName : String) (rest : List (String × String)) (h : StringListMap) :
    (∀ str, claims.lookup claimName = some (.str str) →
      projectLoop lib claims ((H, claimName) :: rest) h =
        projectLoop lib claims rest
          (appendValue h (lib.CanonicalMIMEHeaderKey H) (specStdBase64 (specUTF8 str)))) ∧
    (∀ claim bytes, claims.lookup claimName = some claim → (∀ str, claim ≠ .str str) →
      lib.Marshal claim = some bytes → (∀ b ∈ bytes, b < 256) →
      projectLoop lib claims ((H, claimName) :: rest) h =
        projectLoop lib claims rest
          (appendValue h (lib.CanonicalMIMEHeaderKey H) (specStdBase64 bytes))) ∧
    projectSub sampleLib [] (.str "alice") = [("X-User", ["YWxpY2U="])] ∧
    projectSub marshalLib [] (.str "alice") = [("X-User", ["YWxpY2U="])] ∧
    projectSub sampleLib [] (.str "é") = [("X-User", ["w6k="])] ∧
    projectSub sampleLib [] (.str "€𝄞") = [("X-User", ["4oKs8J2Eng=="])] ∧
    projectSub sampleLib [] (.str "???") = [("X-User", ["Pz8/"])] ∧
    projectSub sampleLib [] (.str ">>>") = [("X-User", ["Pj4+"])] ∧
    projectSub sampleLib [] (.str "a") = [("X-User", ["YQ=="])] ∧
    projectSub sampleLib [] (.str "al") = [("X-User", ["YWw="])] ∧
    projectSub marshalLib [] (.arr [.str "dev"]) = [("X-User", ["WyJkZXYiXQ=="])] := by
  refine ⟨?_, ?_, by decide, by decide, by decide, by decide, by decide, by decide, by decide,
    by decide, by decide⟩
  · intro str hl
    rw [← stringBytes_eq_specUTF8, ← EncodeToString_eq_spec _
      (by rw [stringBytes_eq_specUTF8]; exact specUTF8_lt str)]
    simp [projectLoop, hl, toClaim, Header.Add]
  · intro claim bytes hl hns hm hbytes
    have ht : toClaim lib claim = some bytes := by
      cases claim with
      | str a => exact absurd rfl (hns a)
      | null => simpa [toClaim] using hm
      | bool b => simpa [toClaim] using hm
      | num f => simpa [toClaim] using hm
      | arr xs => simpa [toClaim] using hm
      | obj kvs => simpa [toClaim] using hm
    rw [← EncodeToString_eq_spec bytes hbytes]
    simp [projectLoop, hl, ht, Header.Add]

end NginxAuthJwt
